import Mathlib

/-!
Verification of the deep-comparer repository (DavideCometa/Deep-Comparer).

This file shallowly embeds the JavaScript sources:
  * `src/deep-comparer.js` (the v2.0.3 comparator built around `compareValues`,
    `deepObjectCompare`, `deepArrayCompare` and the returned `deepCompare`),
  * `src/utils/hash-compare.js` (`computeHash`, `hashCompare`),
  * `src/utils/get-changelog.js` (`getChangelog`),
  * `src/utils/filter-object-keys.js` (`filterObjectKeys`),
  * `src/utils/helper.js` (`isObject`, `areBothArrays`, `areBothObjects`,
    `areBothDates`),
  * `src/constants.js` (`DiffType`, `DEFAULT_ROOT`),
and proves / refutes the frozen specification claims about them.

Modelling conventions:
  * JavaScript values are the inductive `JVal`.  Numbers are modelled as
    integers (no claim involves floating point).  `Date` objects carry their
    epoch-milliseconds time value.  Function values carry an opaque id.
  * `undefined` and `null` are distinct values, as in JS; `v == null`
    (loose equality) is `isNullish`, truthiness is `truthy`.
  * Object property enumeration order is the order of the `vObj` field list
    (modelling JS insertion/enumeration order); property lookup returns the
    first binding or `vUndefined`, and only own properties are modelled
    (prototype-chain lookups never occur in the claims considered).
  * The comparator's promises resolve with no side effects and
    `Promise.all` collects results positionally, so the `async` functions are
    modelled as sequential functions into `Except CmpError`; a thrown
    JS exception is an `Except.error`.
-/

/-- A JavaScript value as handled by the comparer: `undefined`, `null`,
booleans, (integer) numbers, strings, `Date` objects (epoch milliseconds),
arrays, plain objects (ordered own-enumerable string-keyed fields), and
function values (opaque id). -/
inductive JVal where
  | vUndefined : JVal
  | vNull : JVal
  | vBool : Bool → JVal
  | vNum : Int → JVal
  | vStr : String → JVal
  | vDate : Int → JVal
  | vArr : List JVal → JVal
  | vObj : List (String × JVal) → JVal
  | vFun : Nat → JVal
deriving Repr

namespace JVal

/-- JS loose equality to `null` (`value == null`): true exactly for
`null` and `undefined`. -/
def isNullish : JVal → Bool
  | vNull => true
  | vUndefined => true
  | _ => false

/-- JS truthiness (`!v` is the negation).  `null`, `undefined`, `false`,
`0` and `""` are falsy; every object, array, date or function is truthy. -/
def truthy : JVal → Bool
  | vUndefined => false
  | vNull => false
  | vBool b => b
  | vNum n => n != 0
  | vStr s => s != ""
  | _ => true

/-- `typeof v === 'function'`. -/
def isFun : JVal → Bool
  | vFun _ => true
  | _ => false

/-- `typeof v === 'object'` (true for `null`, dates, arrays and objects). -/
def typeofIsObject : JVal → Bool
  | vNull => true
  | vDate _ => true
  | vArr _ => true
  | vObj _ => true
  | _ => false

/-- `Helper.isObject`: `value != null && typeof value === 'object'`. -/
def isObject (v : JVal) : Bool := !v.isNullish && v.typeofIsObject

/-- `Array.isArray`. -/
def isArray : JVal → Bool
  | vArr _ => true
  | _ => false

/-- `v instanceof Date`. -/
def isDate : JVal → Bool
  | vDate _ => true
  | _ => false

/-- `Date.prototype.getTime` (0 on non-dates; only consulted on dates). -/
def getTime : JVal → Int
  | vDate t => t
  | _ => 0

end JVal

open JVal

/-- `Helper.areBothArrays`. -/
def areBothArrays (v1 v2 : JVal) : Bool := v1.isArray && v2.isArray

/-- `Helper.areBothObjects`. -/
def areBothObjects (v1 v2 : JVal) : Bool := v1.isObject && v2.isObject

/-- `Helper.areBothDates`. -/
def areBothDates (v1 v2 : JVal) : Bool := v1.isDate && v2.isDate

/-- JS strict equality `===` restricted to the comparisons the comparer
performs: the `value1 !== value2` branch of `compareValues` is reached only
when at least one side is a primitive, where `===` is value equality on
same-typed primitives and false across types.  For two composite values
(two distinct objects/arrays/dates) strict equality is reference equality;
that case is unreachable in the comparer (both-object pairs recurse
instead), and is conservatively modelled as `false` here. -/
def jsStrictEq : JVal → JVal → Bool
  | vUndefined, vUndefined => true
  | vNull, vNull => true
  | vBool a, vBool b => a == b
  | vNum a, vNum b => a == b
  | vStr a, vStr b => a == b
  | _, _ => false

/-- A primitive (non-object, non-function) value: exactly the values `v`
with `typeof v` not `'object'`/`'function'`, plus `null`. -/
def isPrimitive : JVal → Bool
  | vUndefined => true
  | vNull => true
  | vBool _ => true
  | vNum _ => true
  | vStr _ => true
  | _ => false

/-- Index lookup `xs[i]` (out-of-range reads give `undefined`). -/
def jsIndex (xs : List JVal) (i : Nat) : JVal := xs.getD i vUndefined

/-- Lookup of a string property on an array by walking the elements with
their decimal index strings (`arr['2']` is `arr[2]`, any other string is
`undefined` — only own index properties are modelled). -/
def indexLookup (k : String) : Nat → List JVal → JVal
  | _, [] => vUndefined
  | i, x :: rest => if toString i == k then x else indexLookup k (i + 1) rest

/-- Property read `o[k]`: first binding of `k` in an object, index lookup in
an array, `undefined` otherwise (dates and primitives have no modelled own
properties). -/
def objGet (o : JVal) (k : String) : JVal :=
  match o with
  | vObj fs =>
    match fs.find? (fun kv => kv.1 == k) with
    | some kv => kv.2
    | none => vUndefined
  | vArr xs => indexLookup k 0 xs
  | _ => vUndefined

/-- `Object.prototype.hasOwnProperty.call (o, k)`. -/
def jsHasOwn (o : JVal) (k : String) : Bool :=
  match o with
  | vObj fs => fs.any (fun kv => kv.1 == k)
  | vArr xs => (List.range xs.length).any (fun i => toString i == k)
  | _ => false

/-- `Object.entries`: key/value pairs of an object's own enumerable
properties; index/value pairs of an array; empty on dates and primitives. -/
def jsEntries (o : JVal) : List (String × JVal) :=
  match o with
  | vObj fs => fs
  | vArr xs => (xs.enum).map (fun p => (toString p.1, p.2))
  | _ => []

/-! ## JSON serialization (model of `JSON.stringify`) and the hash shortcut -/

/-- Lowercase hex digit, for JSON `\u00xx` control-character escapes. -/
def hexDigit (n : Nat) : String :=
  String.singleton (Char.ofNat (if n < 10 then 48 + n else 87 + n))

/-- One character of a JSON string literal, escaped as `JSON.stringify`
escapes it. -/
def escChar (c : Char) : String :=
  if c = '"' then "\\\""
  else if c = '\\' then "\\\\"
  else if c = '\x08' then "\\b"
  else if c = '\x0c' then "\\f"
  else if c = '\n' then "\\n"
  else if c = '\r' then "\\r"
  else if c = '\t' then "\\t"
  else if c.toNat < 32 then "\\u00" ++ hexDigit (c.toNat / 16) ++ hexDigit (c.toNat % 16)
  else String.singleton c

/-- A JSON string literal for `s`, as produced by `JSON.stringify`. -/
def jsonQuote (s : String) : String :=
  "\"" ++ String.join (s.data.map escChar) ++ "\""

/-- `toString` padded on the left with zeros to at least `w` digits. -/
def padNum (w : Nat) (n : Nat) : String :=
  let s := toString n
  if s.length < w then String.mk (List.replicate (w - s.length) '0') ++ s else s

/-- Civil date (proleptic Gregorian, UTC) from days since 1970-01-01,
following the standard era-based algorithm used by date libraries. -/
def civilFromDays (z : Int) : Int × Nat × Nat :=
  let z' := z + 719468
  let era : Int := Int.fdiv z' 146097
  let doe : Nat := (Int.fmod z' 146097).toNat
  let yoe : Nat := (doe - doe / 1460 + doe / 36524 - doe / 146096) / 365
  let doy : Nat := doe - (365 * yoe + yoe / 4 - yoe / 100)
  let mp : Nat := (5 * doy + 2) / 153
  let d : Nat := doy - (153 * mp + 2) / 5 + 1
  let m : Nat := if mp < 10 then mp + 3 else mp - 9
  let y : Int := (yoe : Int) + era * 400
  (if m ≤ 2 then y + 1 else y, m, d)

/-- The year field of a `Date.prototype.toISOString` rendering (four digits,
or the expanded `±YYYYYY` form outside 0000–9999). -/
def isoYear (y : Int) : String :=
  if 0 ≤ y ∧ y ≤ 9999 then padNum 4 y.toNat
  else if 9999 < y then "+" ++ padNum 6 y.toNat
  else "-" ++ padNum 6 (-y).toNat

/-- `Date.prototype.toISOString` for a time value of `t` milliseconds since
the epoch: `YYYY-MM-DDTHH:mm:ss.sssZ` in UTC. -/
def isoUTC (t : Int) : String :=
  let ms : Nat := (Int.fmod t 86400000).toNat
  let days : Int := Int.fdiv t 86400000
  let ymd := civilFromDays days
  isoYear ymd.1 ++ "-" ++ padNum 2 ymd.2.1 ++ "-" ++ padNum 2 ymd.2.2 ++
    "T" ++ padNum 2 (ms / 3600000) ++ ":" ++ padNum 2 (ms % 3600000 / 60000) ++
    ":" ++ padNum 2 (ms % 60000 / 1000) ++ "." ++ padNum 3 (ms % 1000) ++ "Z"

mutual

/-- `JSON.stringify`.  Returns `none` where the JS builtin returns the
value `undefined` instead of a string (top-level `undefined` or function).
Dates serialize through `Date.prototype.toJSON` as their quoted ISO string;
inside arrays, unserializable elements become `null`; inside objects,
bindings whose value is unserializable are dropped. -/
def jsonStringify : JVal → Option String
  | vUndefined => none
  | vFun _ => none
  | vNull => some "null"
  | vBool b => some (if b then "true" else "false")
  | vNum n => some (toString n)
  | vStr s => some (jsonQuote s)
  | vDate t => some (jsonQuote (isoUTC t))
  | vArr xs => some ("[" ++ String.intercalate "," (jsonArrItems xs) ++ "]")
  | vObj fs => some ("\x7b" ++ String.intercalate "," (jsonObjItems fs) ++ "\x7d")

/-- Serialized forms of array elements (unserializable elements render as
`null`). -/
def jsonArrItems : List JVal → List String
  | [] => []
  | x :: rest => (jsonStringify x).getD "null" :: jsonArrItems rest

/-- Serialized `"key":value` members of an object (bindings with
unserializable values are dropped). -/
def jsonObjItems : List (String × JVal) → List String
  | [] => []
  | kv :: rest =>
    match jsonStringify kv.2 with
    | some s => (jsonQuote kv.1 ++ ":" ++ s) :: jsonObjItems rest
    | none => jsonObjItems rest

end

/-- Errors the comparer can raise: the invalid-input error of `deepCompare`,
the `Function found at <path>` error of `compareValues`, and the `TypeError`
thrown by `crypto`'s `hash.update` when fed the non-string
`JSON.stringify(undefined)`. -/
inductive CmpError where
  | invalidInput : CmpError
  | functionFound : String → CmpError
  | typeError : CmpError
deriving Repr, DecidableEq

/-- `computeHash` of `hash-compare.js`: the SHA-256 hex digest of
`JSON.stringify(data)`.  The digest is modelled as an injective function of
the serialized string (SHA-256 idealized as collision-free), so the model
returns the serialization itself; two digests compare equal iff the
serializations do.  When `JSON.stringify` yields no string,
`hash.update(undefined)` throws a `TypeError`. -/
def computeHash (data : JVal) : Except CmpError String :=
  match jsonStringify data with
  | some s => .ok s
  | none => .error .typeError

/-- `hashCompare` of `hash-compare.js`: digests of the two versions are
equal. -/
def hashCompare (priorVersion latestVersion : JVal) : Except CmpError Bool := do
  let h1 ← computeHash priorVersion
  let h2 ← computeHash latestVersion
  pure (h1 == h2)

/-! ## Changelog entries, redaction, and the entry builder -/

/-- `DiffType` of `constants.js` (the three `Symbol`s). -/
inductive DiffType where
  | Deleted : DiffType
  | Updated : DiffType
  | Added : DiffType
deriving Repr, DecidableEq

/-- `DEFAULT_ROOT` of `constants.js`. -/
def DEFAULT_ROOT : String := "root"

/-- A changelog entry `{ path, oldVal?, newVal?, note }`. -/
structure Entry where
  path : String
  oldVal : Option JVal
  newVal : Option JVal
  note : String
deriving Repr

mutual

/-- `filterObjectKeys` of `filter-object-keys.js`:
`if (!obj || typeof obj !== 'object' || !keysToFilter) return obj;` then
arrays are filtered elementwise and other objects are rebuilt from their
`Object.entries`, dropping denylisted keys.  An unset `keysToFilter`
(JS `undefined`) is `none`.  A `Date` is truthy, of object type and not an
array, and has no own enumerable entries, so it is rebuilt as the empty
object. -/
def filterObjectKeys (obj : JVal) (keysToFilter : Option (List String)) : JVal :=
  match keysToFilter with
  | none => obj
  | some ks =>
    match obj with
    | vArr xs => vArr (filterElems xs ks)
    | vObj fs => vObj (filterEntries fs ks)
    | vDate _ => vObj []
    | o => o

/-- `obj.map((item) => filterObjectKeys(item, keysToFilter))`. -/
def filterElems : List JVal → List String → List JVal
  | [], _ => []
  | x :: rest, ks => filterObjectKeys x (some ks) :: filterElems rest ks

/-- The `Object.entries(obj).reduce` of `filterObjectKeys`: keep bindings
whose key is not denylisted, recursing into their values. -/
def filterEntries : List (String × JVal) → List String → List (String × JVal)
  | [], _ => []
  | kv :: rest, ks =>
    if kv.1 ∈ ks then filterEntries rest ks
    else (kv.1, filterObjectKeys kv.2 (some ks)) :: filterEntries rest ks

end

/-- `getChangelog` of `get-changelog.js`.  Note that the `Added` case reads
the *first* argument (callers pass the added value there and `undefined`
second).  The `note` strings are the `Symbol` descriptions. -/
def getChangelog (prior latest : JVal) (path : String) (diffType : DiffType)
    (keysToFilter : Option (List String)) : Entry :=
  match diffType with
  | .Deleted => ⟨path, some (filterObjectKeys prior keysToFilter), none, "Deleted"⟩
  | .Updated => ⟨path, some (filterObjectKeys prior keysToFilter),
      some (filterObjectKeys latest keysToFilter), "Updated"⟩
  | .Added => ⟨path, none, some (filterObjectKeys prior keysToFilter), "Added"⟩

/-! ## The recursive comparator of `deep-comparer.js` -/

/-- `keysToIgnore && keysToIgnore.includes(key)`: an unset ignore list
(JS `undefined`, here `none`) ignores nothing. -/
def ignoresKey (ign : Option (List String)) (k : String) : Bool :=
  match ign with
  | some l => l.contains k
  | none => false

theorem JVal.one_le_sizeOf (v : JVal) : 1 ≤ sizeOf v := by
  cases v <;> simp

theorem indexLookup_sizeOf_le (k : String) (i : Nat) (xs : List JVal) :
    sizeOf (indexLookup k i xs) ≤ sizeOf xs := by
  induction xs generalizing i with
  | nil => simp [indexLookup]
  | cons x rest ih =>
    simp only [indexLookup]
    split
    · simp
      omega
    · have := ih (i + 1)
      simp
      omega

theorem objGet_sizeOf_le (o : JVal) (k : String) : sizeOf (objGet o k) ≤ sizeOf o := by
  cases o with
  | vObj fs =>
    simp only [objGet]
    split
    · next kv heq =>
      have hmem := List.mem_of_find?_eq_some heq
      have h1 : sizeOf kv < sizeOf fs := List.sizeOf_lt_of_mem hmem
      have h2 : sizeOf kv.2 < sizeOf kv := by
        cases kv
        simp
      simp
      omega
    · have := JVal.one_le_sizeOf (vObj fs)
      simp_all
  | vArr xs =>
    have := indexLookup_sizeOf_le k 0 xs
    simp [objGet]; omega
  | vUndefined => simp [objGet]
  | vNull => simp [objGet]
  | vBool b => simp [objGet]
  | vNum n => simp [objGet]
  | vStr s => simp [objGet]
  | vDate t => simp [objGet]
  | vFun f => simp [objGet]

theorem jsIndex_sizeOf_le (xs : List JVal) (i : Nat) : sizeOf (jsIndex xs i) ≤ sizeOf xs := by
  induction xs generalizing i with
  | nil => simp [jsIndex]
  | cons x rest ih =>
    cases i with
    | zero => simp [jsIndex]; omega
    | succ j => have := ih j; simp [jsIndex] at *; omega

mutual

/-- `compareValues` of `deep-comparer.js`: throws on function values,
emits Deleted when `value2 == null` (loose equality, so for `null` and
`undefined` alike), Updated for dates with differing time values,
recurses on array pairs and object pairs (`Helper.isObject`), and
otherwise emits Updated iff `value1 !== value2`. -/
def compareValues (ign fil : Option (List String)) (value1 value2 : JVal)
    (path : String) : Except CmpError (List Entry) :=
  if value1.isFun || value2.isFun then
    .error (.functionFound path)
  else if value2.isNullish then
    .ok [getChangelog value1 vUndefined path .Deleted fil]
  else if areBothDates value1 value2 && value1.getTime != value2.getTime then
    .ok [getChangelog value1 value2 path .Updated fil]
  else if areBothArrays value1 value2 then
    deepArrayCompare ign fil value1 value2 path
  else if areBothObjects value1 value2 then
    deepObjectCompare ign fil value1 value2 path
  else if !jsStrictEq value1 value2 then
    .ok [getChangelog value1 value2 path .Updated fil]
  else
    .ok []
termination_by 2 * (sizeOf value1 + sizeOf value2) + 1
decreasing_by
  all_goals simp_wf

/-- `deepObjectCompare` of `deep-comparer.js`: hash shortcut, then one
`compareValues` per entry of `prior` (skipping ignored keys; `Promise.all`
keeps the entry order), then the newly-added-key sweep over
`Object.entries(latest)` appending Added entries.  `Object.entries` of the
`prior` side is split by shape for the termination measure: object fields,
array index/element pairs (`deepObjectCompare` also receives arrays and
dates through `Helper.areBothObjects` on mixed composite pairs), or
nothing. -/
def deepObjectCompare (ign fil : Option (List String)) (prior latest : JVal)
    (path : String) : Except CmpError (List Entry) := do
  let eq ← hashCompare prior latest
  if eq then
    pure []
  else
    let flattenedDiffs ←
      match prior with
      | vObj fs => compareKeysGo ign fil latest path fs
      | vArr xs => compareIdxKeysGo ign fil latest path 0 xs
      | _ => pure []
    pure ((jsEntries latest).foldl (fun diffs kv =>
      if jsHasOwn prior kv.1 then diffs
      else diffs ++ [getChangelog kv.2 vUndefined (path ++ "." ++ kv.1) .Added fil])
      flattenedDiffs)
termination_by 2 * (sizeOf prior + sizeOf latest)
decreasing_by
  all_goals simp_wf

/-- The per-key pass of `deepObjectCompare` over `Object.entries(prior)`
when `prior` is a plain object: ignored keys contribute `[]`, the others
`compareValues(val, latest[key], path + '.' + key)`; the positional results
are flattened in entry order. -/
def compareKeysGo (ign fil : Option (List String)) (latest : JVal) (path : String) :
    List (String × JVal) → Except CmpError (List Entry)
  | [] => pure []
  | (k, v) :: rest => do
    let d ← if ignoresKey ign k then pure []
            else compareValues ign fil v (objGet latest k) (path ++ "." ++ k)
    let ds ← compareKeysGo ign fil latest path rest
    pure (d ++ ds)
termination_by fs => 2 * (sizeOf fs + sizeOf latest)
decreasing_by
  all_goals simp_wf
  all_goals first
    | omega
    | (have h := objGet_sizeOf_le latest k
       omega)

/-- The per-key pass of `deepObjectCompare` when `prior` is an array:
`Object.entries` then enumerates decimal index keys, which are checked
against the ignore list like any other key. -/
def compareIdxKeysGo (ign fil : Option (List String)) (latest : JVal) (path : String) :
    Nat → List JVal → Except CmpError (List Entry)
  | _, [] => pure []
  | i, x :: rest => do
    let d ← if ignoresKey ign (toString i) then pure []
            else compareValues ign fil x (objGet latest (toString i)) (path ++ "." ++ toString i)
    let ds ← compareIdxKeysGo ign fil latest path (i + 1) rest
    pure (d ++ ds)
termination_by _ xs => 2 * (sizeOf xs + sizeOf latest)
decreasing_by
  all_goals simp_wf
  all_goals first
    | omega
    | (have h := objGet_sizeOf_le latest (toString i)
       omega)

/-- `deepArrayCompare` of `deep-comparer.js`: hash shortcut, one
`compareValues(elem, latest[i], path + '[' + i + ']')` per element of
`prior` in order, then Added entries for `latest.slice(prior.length)` at
the continuing indices.  Only array pairs reach this function
(`Helper.areBothArrays` guards every call), so other shapes return no
diffs. -/
def deepArrayCompare (ign fil : Option (List String)) (prior latest : JVal)
    (path : String) : Except CmpError (List Entry) := do
  let eq ← hashCompare prior latest
  if eq then
    pure []
  else
    match prior, latest with
    | vArr xs, vArr ys => do
      let flattenedDiffs ← compareElemsGo ign fil ys path 0 xs
      pure (((ys.drop xs.length).enum).foldl (fun diffs p =>
        diffs ++ [getChangelog p.2 vUndefined
          (path ++ "[" ++ toString (p.1 + xs.length) ++ "]") .Added fil])
        flattenedDiffs)
    | _, _ => pure []
termination_by 2 * (sizeOf prior + sizeOf latest)
decreasing_by
  all_goals simp_wf
  all_goals omega

/-- The per-element pass of `deepArrayCompare` over `prior`'s elements,
with `latest[i]` read as `undefined` beyond `latest.length`. -/
def compareElemsGo (ign fil : Option (List String)) (ys : List JVal) (path : String) :
    Nat → List JVal → Except CmpError (List Entry)
  | _, [] => pure []
  | i, x :: rest => do
    let d ← compareValues ign fil x (jsIndex ys i) (path ++ "[" ++ toString i ++ "]")
    let ds ← compareElemsGo ign fil ys path (i + 1) rest
    pure (d ++ ds)
termination_by _ xs => 2 * (sizeOf xs + sizeOf ys)
decreasing_by
  all_goals simp_wf
  all_goals first
    | omega
    | (have h := jsIndex_sizeOf_le ys i
       omega)

end

/-- The `deepCompare` function returned by `createDeepComparer` (with the
bound `keysToIgnore`/`keysToFilter` passed explicitly): validates
truthiness of both versions (`if (!prior || !latest) throw ...`, which
rejects every falsy value, not only `null`/`undefined`), applies the hash
shortcut to the whole pair, then dispatches on the classification;
a top-level pair that is neither two arrays nor two objects produces a
single Updated entry at the root path.  The performance-logger call has no
observable effect and is not modelled. -/
def deepCompare (ign fil : Option (List String)) (prior latest : JVal)
    (root : String := DEFAULT_ROOT) : Except CmpError (List Entry) :=
  if !prior.truthy || !latest.truthy then
    .error .invalidInput
  else do
    let eq ← hashCompare prior latest
    if eq then
      pure []
    else if areBothArrays prior latest then
      deepArrayCompare ign fil prior latest root
    else if areBothObjects prior latest then
      deepObjectCompare ign fil prior latest root
    else
      pure [getChangelog prior latest root .Updated fil]

/-! ## Characterization of the per-level passes

The `Promise.all`-based passes are re-expressed as positional `mapM`s plus
an appended added-entry sweep, which is the shape the ordering claims are
stated in. -/

/-- The task `deepObjectCompare` spawns for one entry of `prior`. -/
def perKeyDiff (ign fil : Option (List String)) (latest : JVal) (path : String)
    (kv : String × JVal) : Except CmpError (List Entry) :=
  if ignoresKey ign kv.1 then pure []
  else compareValues ign fil kv.2 (objGet latest kv.1) (path ++ "." ++ kv.1)

/-- The task `deepArrayCompare` spawns for one indexed element of `prior`. -/
def perElemDiff (ign fil : Option (List String)) (ys : List JVal) (path : String)
    (p : Nat × JVal) : Except CmpError (List Entry) :=
  compareValues ign fil p.2 (jsIndex ys p.1) (path ++ "[" ++ toString p.1 ++ "]")

/-- The Added entries of `deepObjectCompare`'s newly-added-key sweep, in
`latest`'s enumeration order. -/
def addedKeyEntries (fil : Option (List String)) (prior latest : JVal)
    (path : String) : List Entry :=
  ((jsEntries latest).filter (fun kv => !jsHasOwn prior kv.1)).map
    (fun kv => getChangelog kv.2 vUndefined (path ++ "." ++ kv.1) .Added fil)

/-- The Added entries of `deepArrayCompare`'s trailing-element sweep, in
order, at the indices continuing from `prior.length`. -/
def addedElemEntries (fil : Option (List String)) (xs ys : List JVal)
    (path : String) : List Entry :=
  ((ys.drop xs.length).enum).map
    (fun p => getChangelog p.2 vUndefined
      (path ++ "[" ++ toString (p.1 + xs.length) ++ "]") .Added fil)

theorem foldl_filterPush {α β : Type} (c : α → Bool) (g : α → β) :
    ∀ (l : List α) (init : List β),
    l.foldl (fun ds kv => if c kv then ds else ds ++ [g kv]) init
      = init ++ (l.filter (fun kv => !c kv)).map g := by
  intro l
  induction l with
  | nil => intro init; simp
  | cons x rest ih =>
    intro init
    by_cases hc : c x = true <;> simp [hc, ih]

theorem foldl_push {α β : Type} (g : α → β) :
    ∀ (l : List α) (init : List β),
    l.foldl (fun ds p => ds ++ [g p]) init = init ++ l.map g := by
  intro l
  induction l with
  | nil => intro init; simp
  | cons x rest ih => intro init; simp [ih]

theorem exceptBind_ok {ε α β : Type} (a : α) (f : α → Except ε β) :
    (do let x ← (Except.ok a : Except ε α); f x) = f a := rfl

theorem exceptBind_error {ε α β : Type} (e : ε) (f : α → Except ε β) :
    (do let x ← (Except.error e : Except ε α); f x) = Except.error e := rfl

theorem compareKeysGo_eq (ign fil : Option (List String)) (latest : JVal) (path : String) :
    ∀ fs, compareKeysGo ign fil latest path fs
      = Except.map List.flatten (fs.mapM (perKeyDiff ign fil latest path)) := by
  intro fs
  induction fs with
  | nil =>
    rw [compareKeysGo]
    rfl
  | cons kv rest ih =>
    obtain ⟨k, v⟩ := kv
    rw [compareKeysGo, List.mapM_cons, ih]
    by_cases hig : ignoresKey ign k = true
    · have hpk : perKeyDiff ign fil latest path (k, v)
          = (pure [] : Except CmpError (List Entry)) := by
        simp [perKeyDiff, hig]
      rw [hpk]
      simp only [hig, reduceIte]
      cases hm : rest.mapM (perKeyDiff ign fil latest path) with
      | error e => rfl
      | ok ns => rfl
    · have hpk : perKeyDiff ign fil latest path (k, v)
          = compareValues ign fil v (objGet latest k) (path ++ "." ++ k) := by
        simp [perKeyDiff, hig]
      rw [hpk]
      simp only [hig, reduceIte]
      cases hd : compareValues ign fil v (objGet latest k) (path ++ "." ++ k) with
      | error e => rfl
      | ok d =>
        cases hm : rest.mapM (perKeyDiff ign fil latest path) with
        | error e => rfl
        | ok ns => rfl

theorem compareElemsGo_eq (ign fil : Option (List String)) (ys : List JVal) (path : String) :
    ∀ xs i, compareElemsGo ign fil ys path i xs
      = Except.map List.flatten ((xs.enumFrom i).mapM (perElemDiff ign fil ys path)) := by
  intro xs
  induction xs with
  | nil =>
    intro i
    rw [compareElemsGo]
    rfl
  | cons x rest ih =>
    intro i
    rw [compareElemsGo, List.enumFrom_cons, List.mapM_cons, ih]
    have hpe : perElemDiff ign fil ys path (i, x)
        = compareValues ign fil x (jsIndex ys i) (path ++ "[" ++ toString i ++ "]") := rfl
    rw [hpe]
    cases hd : compareValues ign fil x (jsIndex ys i) (path ++ "[" ++ toString i ++ "]") with
    | error e => rfl
    | ok d =>
      cases hm : (rest.enumFrom (i + 1)).mapM (perElemDiff ign fil ys path) with
      | error e => rfl
      | ok ns => rfl

theorem deepObjectCompare_obj_eq (ign fil : Option (List String))
    (fs : List (String × JVal)) (latest : JVal) (path : String)
    (h : hashCompare (vObj fs) latest = .ok false) :
    deepObjectCompare ign fil (vObj fs) latest path
      = Except.map (fun ns => ns.flatten ++ addedKeyEntries fil (vObj fs) latest path)
          (fs.mapM (perKeyDiff ign fil latest path)) := by
  rw [deepObjectCompare, h]
  show Except.bind (compareKeysGo ign fil latest path fs)
      (fun flattenedDiffs => Except.ok ((jsEntries latest).foldl (fun diffs kv =>
        if jsHasOwn (vObj fs) kv.1 then diffs
        else diffs ++ [getChangelog kv.2 vUndefined (path ++ "." ++ kv.1) .Added fil])
        flattenedDiffs)) = _
  rw [compareKeysGo_eq]
  cases hm : fs.mapM (perKeyDiff ign fil latest path) with
  | error e => rfl
  | ok ns =>
    have hf := foldl_filterPush (fun kv : String × JVal => jsHasOwn (vObj fs) kv.1)
      (fun kv : String × JVal => getChangelog kv.2 vUndefined (path ++ "." ++ kv.1) .Added fil)
      (jsEntries latest) ns.flatten
    exact congrArg Except.ok hf

theorem deepArrayCompare_arr_eq (ign fil : Option (List String))
    (xs ys : List JVal) (path : String)
    (h : hashCompare (vArr xs) (vArr ys) = .ok false) :
    deepArrayCompare ign fil (vArr xs) (vArr ys) path
      = Except.map (fun ns => ns.flatten ++ addedElemEntries fil xs ys path)
          ((xs.enumFrom 0).mapM (perElemDiff ign fil ys path)) := by
  rw [deepArrayCompare, h]
  show Except.bind (compareElemsGo ign fil ys path 0 xs)
      (fun flattenedDiffs => Except.ok (((ys.drop xs.length).enum).foldl (fun diffs p =>
        diffs ++ [getChangelog p.2 vUndefined
          (path ++ "[" ++ toString (p.1 + xs.length) ++ "]") .Added fil])
        flattenedDiffs)) = _
  rw [compareElemsGo_eq]
  cases hm : (xs.enumFrom 0).mapM (perElemDiff ign fil ys path) with
  | error e => rfl
  | ok ns =>
    have hf := foldl_push (fun p : Nat × JVal => getChangelog p.2 vUndefined
      (path ++ "[" ++ toString (p.1 + xs.length) ++ "]") .Added fil)
      ((ys.drop xs.length).enum) ns.flatten
    exact congrArg Except.ok hf

/-! ## Simple facts about serializability and the shortcut -/

theorem jsonStringify_some_of_truthy_nonfun (v : JVal)
    (hv : v.truthy = true) (hf : v.isFun = false) :
    ∃ s, jsonStringify v = some s := by
  cases v with
  | vUndefined => simp [JVal.truthy] at hv
  | vNull => simp [JVal.truthy] at hv
  | vBool b => exact ⟨_, rfl⟩
  | vNum n => exact ⟨_, rfl⟩
  | vStr s => exact ⟨_, rfl⟩
  | vDate t => exact ⟨_, rfl⟩
  | vArr xs => exact ⟨_, rfl⟩
  | vObj fs => exact ⟨_, rfl⟩
  | vFun f => simp [JVal.isFun] at hf

theorem hashCompare_self_of_some (v : JVal) (s : String)
    (hs : jsonStringify v = some s) : hashCompare v v = .ok true := by
  simp [hashCompare, computeHash, hs]
  show Except.ok (s == s) = Except.ok true
  rw [beq_self_eq_true]

/-! ## Claim C4 (InvalidInput iff null/undefined) -/

/-- C4: the claim states that `compareFn(prior, latest, root)` raises the
fixed invalid-input error if and only if one of the two top-level arguments
is null or undefined.  The guard in the source is `if (!prior || !latest)`,
which is JS truthiness: it also rejects `0`, `''` and `false`.  This theorem
evaluates the model at the failing input `deepCompare(0, 1)` — neither
argument is null or undefined, the claim (and the function's own JSDoc)
say no error is raised, yet the code throws — and also records that the
null/undefined direction does hold. -/
theorem C4_invalidInput_guard_is_truthiness :
    deepCompare none none (vNum 0) (vNum 1) "root" = .error .invalidInput
    ∧ (vNum 0).isNullish = false ∧ (vNum 1).isNullish = false
    ∧ deepCompare none none vUndefined vNull "root" = .error .invalidInput
    ∧ deepCompare none none vNull (vNum 1) "root" = .error .invalidInput := by
  exact ⟨rfl, rfl, rfl, rfl, rfl⟩

/-! ## Claim C5 (identity: compare(v, v) is empty) -/

/-- C5 counterexample: the claim states `compare(v, v)` returns the empty
changelog for *every* value `v`.  For `v = 0` (falsy but neither null nor
undefined) the call instead raises the invalid-input error, because the
guard tests truthiness. -/
theorem C5_identity_counterexample :
    deepCompare none none (vNum 0) (vNum 0) "root" = .error .invalidInput
    ∧ deepCompare none none (vNum 0) (vNum 0) "root" ≠ .ok [] := by
  refine ⟨rfl, ?_⟩
  intro h
  exact Except.noConfusion h

/-- C5 amended: for every value `v` that is truthy and not a function,
`compare(v, v)` returns the empty changelog, regardless of configuration and
root label (the whole pair is pruned by the hash shortcut, whose digests
agree on the two identical serializations). -/
theorem C5_identity_amended (v : JVal) (hv : v.truthy = true) (hf : v.isFun = false)
    (ign fil : Option (List String)) (root : String) :
    deepCompare ign fil v v root = .ok [] := by
  obtain ⟨s, hs⟩ := jsonStringify_some_of_truthy_nonfun v hv hf
  have hh := hashCompare_self_of_some v s hs
  rw [deepCompare]
  rw [hv]
  show Except.bind (hashCompare v v) _ = _
  rw [hh]
  rfl

/-- C5 witness: the amended identity applied at the concrete value `3`. -/
theorem C5_identity_witness :
    (vNum 3).truthy = true ∧ (vNum 3).isFun = false
    ∧ deepCompare none none (vNum 3) (vNum 3) "root" = .ok [] :=
  ⟨by decide, by decide, C5_identity_amended (vNum 3) (by decide) (by decide) none none "root"⟩

/-! ## Claim C3 (function values are always fatal) -/

/-- C3 counterexample: the claim states that *every* input pair containing a
function-typed value at a compared position makes the whole call fail.  But
`JSON.stringify` serializes a function array element as `null`, so the two
sides hash equal and the shortcut returns an empty changelog before the
traversal ever reaches the function at index 0: `compare([fn], [fn])`
succeeds with `[]` instead of failing. -/
theorem C3_function_counterexample :
    deepCompare none none (vArr [vFun 0]) (vArr [vFun 0]) "root" = .ok []
    ∧ (vFun 0).isFun = true := by
  exact ⟨rfl, rfl⟩

/-- C3 amended: a function value is fatal exactly when the traversal reaches
it through `compareValues`: (i) whenever either co-located value is a
function, `compareValues` fails with the error naming that exact path and
yields no entries; (ii) the failure aborts the whole call — on the
repository's own test input the full comparison returns exactly
`Function found at root.key1.subKey1[0]` and no changelog; but (iii) a
subtree pruned by the equality shortcut is never traversed, so a function
inside it does not raise. -/
theorem C3_function_fatal_amended :
    (∀ (ign fil : Option (List String)) (v w : JVal) (p : String),
      (v.isFun || w.isFun) = true →
      compareValues ign fil v w p = .error (.functionFound p))
    ∧ deepCompare none none
        (vObj [("key1", vObj [("subKey1", vArr [vFun 0])])])
        (vObj [("key1", vObj [("subKey1", vArr [vStr "x"])])]) "root"
        = .error (.functionFound "root.key1.subKey1[0]")
    ∧ deepCompare none none (vArr [vFun 0]) (vArr [vFun 0]) "root" = .ok [] := by
  refine ⟨?_, ?_, rfl⟩
  · intro ign fil v w p h
    rw [compareValues, h]
    rfl
  · simp +decide [deepCompare, deepObjectCompare, deepArrayCompare, compareKeysGo,
      compareElemsGo, compareValues, hashCompare, computeHash, jsonStringify,
      jsonObjItems, jsonArrItems, jsonQuote, escChar, getChangelog, filterObjectKeys,
      jsEntries, jsHasOwn, objGet, ignoresKey, jsIndex, indexLookup]
    rfl

/-- C3 witness: conjunct (i) of the amended claim applied to a function in
prior position at path `root`. -/
theorem C3_function_fatal_witness :
    ((vFun 0).isFun || vNull.isFun) = true
    ∧ compareValues none none (vFun 0) vNull "root" = .error (.functionFound "root") :=
  ⟨by decide, C3_function_fatal_amended.1 none none (vFun 0) vNull "root" (by decide)⟩

/-! ## Claim C9 (hash shortcut and structural-kind markers) -/

/-- C9 counterexample: the claim states the shortcut never prunes a pair
the classifier would treat as a difference, giving "a date vs. its string
form" as distinguishable.  In the source, `JSON.stringify` serializes a
`Date` through `toJSON` as exactly the quoted ISO string, so a date and its
ISO string form share one digest: `hashCompare` answers `true`, while the
classifier treats the pair as heterogeneous and `compareValues` emits an
Updated entry for it — and the top-level comparison is pruned to `[]`. -/
theorem C9_hash_counterexample :
    hashCompare (vDate 0) (vStr (isoUTC 0)) = .ok true
    ∧ compareValues none none (vDate 0) (vStr (isoUTC 0)) "root"
        = .ok [⟨"root", some (vDate 0), some (vStr (isoUTC 0)), "Updated"⟩]
    ∧ deepCompare none none (vDate 0) (vStr (isoUTC 0)) "root" = .ok [] := by
  refine ⟨rfl, ?_, rfl⟩
  rw [compareValues]
  rfl

/-- C9 amended: `hashCompare` returns true iff the canonical serializations
(`JSON.stringify`) of the two values are defined and equal — digests are an
injective function of the serialization.  Different structural kinds of
*container* serialize distinguishably (e.g. `[]` against `{}`), but a
`Date` serializes as its quoted ISO string, so a date and its string form
always share a digest and the shortcut can prune such a pair. -/
theorem C9_hash_amended :
    (∀ a b : JVal, hashCompare a b = .ok true
      ↔ ∃ s, jsonStringify a = some s ∧ jsonStringify b = some s)
    ∧ hashCompare (vArr []) (vObj []) = .ok false
    ∧ (∀ t : Int, hashCompare (vDate t) (vStr (isoUTC t)) = .ok true) := by
  refine ⟨?_, rfl, ?_⟩
  · intro a b
    constructor
    · intro h
      cases ha : jsonStringify a with
      | none => rw [hashCompare, computeHash, ha] at h; exact Except.noConfusion h
      | some s1 =>
        cases hb : jsonStringify b with
        | none =>
          rw [hashCompare, computeHash, ha, computeHash, hb] at h
          exact Except.noConfusion h
        | some s2 =>
          rw [hashCompare, computeHash, ha, computeHash, hb] at h
          have h2 : (Except.ok (s1 == s2) : Except CmpError Bool) = .ok true := h
          have h3 : s1 = s2 := eq_of_beq (Except.ok.inj h2)
          exact ⟨s1, rfl, congrArg some h3.symm⟩
    · rintro ⟨s, ha, hb⟩
      rw [hashCompare, computeHash, ha, computeHash, hb]
      show Except.ok (s == s) = Except.ok true
      rw [beq_self_eq_true]
  · intro t
    rw [hashCompare, computeHash, computeHash]
    show Except.ok (jsonQuote (isoUTC t) == jsonQuote (isoUTC t)) = Except.ok true
    rw [beq_self_eq_true]

/-! ## Claim C10 (redaction rebuilds non-array objects; dates become `{}`) -/

mutual

/-- Whether a `Date` value occurs anywhere inside a value (in an array
element or an object field, at any depth). -/
def hasDateIn : JVal → Bool
  | vDate _ => true
  | vArr xs => hasDateInList xs
  | vObj fs => hasDateInEntries fs
  | _ => false

/-- `hasDateIn` over the elements of a list. -/
def hasDateInList : List JVal → Bool
  | [] => false
  | x :: rest => hasDateIn x || hasDateInList rest

/-- `hasDateIn` over the values of a field list. -/
def hasDateInEntries : List (String × JVal) → Bool
  | [] => false
  | kv :: rest => hasDateIn kv.2 || hasDateInEntries rest

end

theorem filterObjectKeys_noDates (v : JVal) (fil : Option (List String)) :
    ∀ ks, fil = some ks → hasDateIn (filterObjectKeys v fil) = false := by
  refine filterObjectKeys.induct
    (fun obj fil => ∀ ks, fil = some ks → hasDateIn (filterObjectKeys obj fil) = false)
    (fun fs ks => hasDateInEntries (filterEntries fs ks) = false)
    (fun xs ks => hasDateInList (filterElems xs ks) = false)
    ?_ ?_ ?_ ?_ ?_ ?_ ?_ ?_ ?_ ?_ v fil
  · intro t ks h
    exact Option.noConfusion h
  · intro ks xs ih ks2 h
    rw [filterObjectKeys]
    exact ih
  · intro ks fs ih ks2 h
    rw [filterObjectKeys]
    exact ih
  · intro ks t ks2 h
    rfl
  · intro ks o h1 h2 h3 ks2 h
    rw [filterObjectKeys]
    cases o with
    | vArr xs => exact absurd rfl (h1 xs)
    | vObj fs => exact absurd rfl (h2 fs)
    | vDate t => exact absurd rfl (h3 t)
    | vUndefined => rfl
    | vNull => rfl
    | vBool b => rfl
    | vNum n => rfl
    | vStr s => rfl
    | vFun f => rfl
    exact h1
    exact h2
    exact h3
  · intro ks
    rfl
  · intro x rest ks ihx ihrest
    show (hasDateIn (filterObjectKeys x (some ks)) || hasDateInList (filterElems rest ks)) = false
    rw [ihx ks rfl, ihrest]
    rfl
  · intro ks
    rfl
  · intro kv rest ks hmem ihrest
    rw [filterEntries]
    simp only [hmem, reduceIte]
    exact ihrest
  · intro kv rest ks hmem ihv ihrest
    rw [filterEntries]
    simp only [hmem, reduceIte]
    show (hasDateIn (filterObjectKeys kv.2 (some ks)) || hasDateInEntries (filterEntries rest ks)) = false
    rw [ihv ks rfl, ihrest]
    rfl

/-- C10: with a non-empty `keysToFilter`, the redactor rebuilds every
non-array object value from its own enumerable string-keyed entries; a
`Date` — truthy, of object type, not an array, and with no own enumerable
entries — is therefore replaced by the empty object.  Consequently no
`Date` survives anywhere inside a redacted value, and an output entry built
with a non-empty filter reports a `Date` value as `{}`. -/
theorem C10_redactor_dates_become_empty (ks : List String) (_hks : ks ≠ []) :
    (∀ t : Int, filterObjectKeys (vDate t) (some ks) = vObj [])
    ∧ (∀ v : JVal, hasDateIn (filterObjectKeys v (some ks)) = false)
    ∧ (∀ (t : Int) (p : String),
        getChangelog (vDate t) vUndefined p .Deleted (some ks)
          = ⟨p, some (vObj []), none, "Deleted"⟩) :=
  ⟨fun _ => rfl, fun v => filterObjectKeys_noDates v (some ks) ks rfl, fun _ _ => rfl⟩

/-- C10 witness: the redaction of a date under the concrete non-empty
filter list `["x"]`. -/
theorem C10_redactor_witness :
    (["x"] : List String) ≠ []
    ∧ filterObjectKeys (vDate 0) (some ["x"]) = vObj [] :=
  ⟨by decide, (C10_redactor_dates_become_empty ["x"] (by decide)).1 0⟩

/-! ## Claim C2 (dates by instant; heterogeneous/scalar pairs by strict equality) -/

theorem isPrimitive_not_composite (v : JVal) (h : isPrimitive v = true) :
    v.isDate = false ∧ v.isArray = false ∧ v.isObject = false := by
  cases v <;> simp_all [isPrimitive, JVal.isDate, JVal.isArray, JVal.isObject,
    JVal.isNullish, JVal.typeofIsObject]

/-- C2 counterexample: the claim demands that a co-located heterogeneous
pair that is not strictly equal produce exactly one Updated entry.  For the
co-located pair `("x", null)` — heterogeneous and not strictly equal — the
code instead emits a Deleted entry, because the `value2 == null` branch of
`compareValues` precedes the classification. -/
theorem C2_updated_counterexample :
    deepCompare none none (vObj [("a", vStr "x")]) (vObj [("a", vNull)]) "root"
      = .ok [⟨"root.a", some (vStr "x"), none, "Deleted"⟩]
    ∧ jsStrictEq (vStr "x") vNull = false := by
  constructor
  · simp +decide [deepCompare, deepObjectCompare, compareKeysGo, compareValues,
      hashCompare, computeHash, jsonStringify, jsonObjItems, jsonQuote, escChar,
      getChangelog, filterObjectKeys, jsEntries, jsHasOwn, objGet, ignoresKey]
    rfl
  · rfl

/-- C2 amended: (a) for two dates, an Updated entry is emitted exactly when
the instants differ (equal-instant dates fall through to the object branch
and are pruned by the hash shortcut); (b) when the latest co-located value
is null or undefined, a Deleted entry is emitted instead of an Updated one;
(c) when at least one side is a primitive and latest is not null/undefined,
exactly one Updated entry is emitted iff the values are not strictly equal;
(d) a top-level pair that is truthy on both sides, not hash-equal, and
neither two arrays nor two objects produces the single Updated entry at the
root path.  (Mixed composite pairs such as array-vs-object are traversed by
`deepObjectCompare` rather than reported as one Updated entry.) -/
theorem C2_updated_amended :
    (∀ (ign fil : Option (List String)) (t1 t2 : Int) (p : String),
      compareValues ign fil (vDate t1) (vDate t2) p
        = .ok (if t1 = t2 then []
            else [getChangelog (vDate t1) (vDate t2) p .Updated fil]))
    ∧ (∀ (ign fil : Option (List String)) (v w : JVal) (p : String),
        v.isFun = false → w.isFun = false → w.isNullish = true →
        compareValues ign fil v w p = .ok [getChangelog v vUndefined p .Deleted fil])
    ∧ (∀ (ign fil : Option (List String)) (v w : JVal) (p : String),
        v.isFun = false → w.isFun = false → w.isNullish = false →
        (isPrimitive v || isPrimitive w) = true →
        compareValues ign fil v w p
          = .ok (if jsStrictEq v w then []
              else [getChangelog v w p .Updated fil]))
    ∧ (∀ (ign fil : Option (List String)) (prior latest : JVal) (root : String),
        prior.truthy = true → latest.truthy = true →
        hashCompare prior latest = .ok false →
        areBothArrays prior latest = false → areBothObjects prior latest = false →
        deepCompare ign fil prior latest root
          = .ok [getChangelog prior latest root .Updated fil]) := by
  refine ⟨?_, ?_, ?_, ?_⟩
  · intro ign fil t1 t2 p
    by_cases h : t1 = t2
    · subst h
      have hh := hashCompare_self_of_some (vDate t1) (jsonQuote (isoUTC t1)) rfl
      have hobj : deepObjectCompare ign fil (vDate t1) (vDate t1) p = .ok [] := by
        rw [deepObjectCompare, hh]
        rfl
      rw [compareValues]
      simp [JVal.isFun, JVal.isNullish, areBothDates, JVal.isDate, JVal.getTime,
        areBothArrays, JVal.isArray, areBothObjects, JVal.isObject,
        JVal.typeofIsObject, hobj]
    · rw [compareValues]
      have hbne : ((vDate t1).getTime != (vDate t2).getTime) = true := by
        simp [JVal.getTime, bne_iff_ne, h]
      simp only [JVal.isFun, Bool.or_self, Bool.false_eq_true, reduceIte,
        JVal.isNullish, areBothDates, JVal.isDate, Bool.and_self, Bool.true_and, hbne]
      simp [h]
  · intro ign fil v w p hv hw hnull
    rw [compareValues]
    rw [hv, hw, hnull]
    rfl
  · intro ign fil v w p hv hw hnull hprim
    have hcomp : areBothDates v w = false ∧ areBothArrays v w = false
        ∧ areBothObjects v w = false := by
      rcases Bool.or_eq_true_iff.mp hprim with hp | hp
      · obtain ⟨h1, h2, h3⟩ := isPrimitive_not_composite v hp
        exact ⟨by simp [areBothDates, h1], by simp [areBothArrays, h2],
          by simp [areBothObjects, h3]⟩
      · obtain ⟨h1, h2, h3⟩ := isPrimitive_not_composite w hp
        exact ⟨by simp [areBothDates, h1], by simp [areBothArrays, h2],
          by simp [areBothObjects, h3]⟩
    rw [compareValues]
    rw [hv, hw, hnull, hcomp.1, hcomp.2.1, hcomp.2.2]
    cases hse : jsStrictEq v w <;> simp
  · intro ign fil prior latest root hp hl hh ha ho
    rw [deepCompare]
    rw [hp, hl]
    show Except.bind (hashCompare prior latest) _ = _
    rw [hh, ha, ho]
    rfl

/-- C2 witness: conjunct (c) of the amended claim applied to the concrete
heterogeneous pair `(1, "x")`, which yields a single Updated entry. -/
theorem C2_updated_witness :
    (vNum 1).isFun = false ∧ (vStr "x").isNullish = false
    ∧ compareValues none none (vNum 1) (vStr "x") "root"
        = .ok [getChangelog (vNum 1) (vStr "x") "root" .Updated none] :=
  ⟨rfl, rfl,
    C2_updated_amended.2.2.1 none none (vNum 1) (vStr "x") "root" rfl rfl rfl (by decide)⟩

/-! ## Path-extension invariant: nested calls only produce longer paths -/

theorem getChangelog_path (a b : JVal) (p : String) (dt : DiffType)
    (fil : Option (List String)) : (getChangelog a b p dt fil).path = p := by
  cases dt <;> rfl

theorem getChangelog_note (a b : JVal) (p : String) (dt : DiffType)
    (fil : Option (List String)) :
    (getChangelog a b p dt fil).note
      = (match dt with
         | .Deleted => "Deleted" | .Updated => "Updated" | .Added => "Added") := by
  cases dt <;> rfl

theorem length_lt_append_dot (p k : String) : p.length < (p ++ "." ++ k).length := by
  have h1 := String.length_append (p ++ ".") k
  have h2 := String.length_append p "."
  have h3 : ".".length = 1 := rfl
  omega

theorem length_lt_append_bracket (p s : String) :
    p.length < (p ++ "[" ++ s ++ "]").length := by
  have h1 := String.length_append (p ++ "[" ++ s) "]"
  have h2 := String.length_append (p ++ "[") s
  have h3 := String.length_append p "["
  have h4 : "[".length = 1 := rfl
  have h5 : "]".length = 1 := rfl
  omega

theorem addedKeyEntries_path_length (fil : Option (List String))
    (prior latest : JVal) (path : String) (e : Entry)
    (he : e ∈ addedKeyEntries fil prior latest path) :
    path.length < e.path.length := by
  unfold addedKeyEntries at he
  obtain ⟨kv, _, rfl⟩ := List.mem_map.mp he
  rw [getChangelog_path]
  exact length_lt_append_dot path kv.1

theorem addedElemEntries_path_length (fil : Option (List String))
    (xs ys : List JVal) (path : String) (e : Entry)
    (he : e ∈ addedElemEntries fil xs ys path) :
    path.length < e.path.length := by
  unfold addedElemEntries at he
  obtain ⟨q, _, rfl⟩ := List.mem_map.mp he
  rw [getChangelog_path]
  exact length_lt_append_bracket path (toString (q.1 + xs.length))

/-- The newly-added-key sweep of `deepObjectCompare`, as a list equation:
folding the push over `Object.entries(latest)` appends exactly
`addedKeyEntries`. -/
theorem sweep_keys_eq (fil : Option (List String)) (prior latest : JVal)
    (path : String) (fl res : List Entry)
    (hres : (Except.ok ((jsEntries latest).foldl (fun diffs kv =>
        if jsHasOwn prior kv.1 then diffs
        else diffs ++ [getChangelog kv.2 vUndefined (path ++ "." ++ kv.1) .Added fil]) fl)
      : Except CmpError (List Entry)) = .ok res) :
    res = fl ++ addedKeyEntries fil prior latest path := by
  have key := foldl_filterPush (fun kv : String × JVal => jsHasOwn prior kv.1)
    (fun kv : String × JVal => getChangelog kv.2 vUndefined (path ++ "." ++ kv.1) .Added fil)
    (jsEntries latest) fl
  exact (Except.ok.inj hres).symm.trans key

/-- The trailing-element sweep of `deepArrayCompare`, as a list equation. -/
theorem sweep_elems_eq (fil : Option (List String)) (xs ys : List JVal)
    (path : String) (fl res : List Entry)
    (hres : (Except.ok (((ys.drop xs.length).enum).foldl (fun diffs p =>
        diffs ++ [getChangelog p.2 vUndefined
          (path ++ "[" ++ toString (p.1 + xs.length) ++ "]") .Added fil]) fl)
      : Except CmpError (List Entry)) = .ok res) :
    res = fl ++ addedElemEntries fil xs ys path := by
  have key := foldl_push (fun p : Nat × JVal => getChangelog p.2 vUndefined
    (path ++ "[" ++ toString (p.1 + xs.length) ++ "]") .Added fil)
    ((ys.drop xs.length).enum) fl
  exact (Except.ok.inj hres).symm.trans key

/-- Every entry a comparison call produces lives at the call's own path or
deeper: `compareValues` produces entries no shorter than its path, and the
object/array walkers produce strictly longer ones; moreover an entry at
exactly the call's path can be a Deleted entry only when the latest value
there was null or undefined.  (The first half is the formal content of
"paths are rebuilt fresh per recursive call, never shared across sibling
branches".) -/
theorem compareValues_entries_inv (ign fil : Option (List String))
    (v w : JVal) (p : String) :
    ∀ res, compareValues ign fil v w p = .ok res →
      ∀ e ∈ res, p.length ≤ e.path.length
        ∧ (e.path = p → e.note = "Deleted" → w.isNullish = true) := by
  refine compareValues.induct ign fil
    (fun v w p => ∀ res, compareValues ign fil v w p = .ok res →
      ∀ e ∈ res, p.length ≤ e.path.length
        ∧ (e.path = p → e.note = "Deleted" → w.isNullish = true))
    (fun prior latest p => ∀ res, deepObjectCompare ign fil prior latest p = .ok res →
      ∀ e ∈ res, p.length < e.path.length)
    (fun latest p i xs => ∀ res, compareIdxKeysGo ign fil latest p i xs = .ok res →
      ∀ e ∈ res, p.length < e.path.length)
    (fun latest p fs => ∀ res, compareKeysGo ign fil latest p fs = .ok res →
      ∀ e ∈ res, p.length < e.path.length)
    (fun prior latest p => ∀ res, deepArrayCompare ign fil prior latest p = .ok res →
      ∀ e ∈ res, p.length < e.path.length)
    (fun ys p i xs => ∀ res, compareElemsGo ign fil ys p i xs = .ok res →
      ∀ e ∈ res, p.length < e.path.length)
    ?_ ?_ ?_ ?_ ?_ ?_ ?_ ?_ ?_ ?_ ?_ ?_ ?_ ?_ ?_ ?_ ?_ v w p
  · intro v1 v2 path hfun res hres e he
    rw [compareValues] at hres
    simp only [hfun, reduceIte] at hres
    exact Except.noConfusion hres
  · intro v1 v2 path hfun hnull res hres e he
    simp only [Bool.not_eq_true] at hfun
    rw [compareValues] at hres
    simp only [hfun, hnull, Bool.false_eq_true, reduceIte] at hres
    obtain rfl := (Except.ok.inj hres).symm
    obtain rfl := List.mem_singleton.mp he
    refine ⟨le_of_eq (congrArg String.length (getChangelog_path _ _ _ _ _).symm), fun _ _ => hnull⟩
  · intro v1 v2 path hfun hnull hdate res hres e he
    simp only [Bool.not_eq_true] at hfun hnull
    rw [compareValues] at hres
    simp only [hfun, hnull, hdate, Bool.false_eq_true, reduceIte] at hres
    obtain rfl := (Except.ok.inj hres).symm
    obtain rfl := List.mem_singleton.mp he
    refine ⟨le_of_eq (congrArg String.length (getChangelog_path _ _ _ _ _).symm), fun _ hnote => ?_⟩
    rw [getChangelog_note] at hnote
    exact absurd hnote (by decide)
  · intro v1 v2 path hfun hnull hdate harr ih res hres e he
    simp only [Bool.not_eq_true] at hfun hnull hdate
    rw [compareValues] at hres
    simp only [hfun, hnull, hdate, harr, Bool.false_eq_true, reduceIte] at hres
    have hlt := ih res hres e he
    refine ⟨le_of_lt hlt, fun hp _ => ?_⟩
    rw [hp] at hlt
    omega
  · intro v1 v2 path hfun hnull hdate harr hobj ih res hres e he
    simp only [Bool.not_eq_true] at hfun hnull hdate harr
    rw [compareValues] at hres
    simp only [hfun, hnull, hdate, harr, hobj, Bool.false_eq_true, reduceIte] at hres
    have hlt := ih res hres e he
    refine ⟨le_of_lt hlt, fun hp _ => ?_⟩
    rw [hp] at hlt
    omega
  · intro v1 v2 path hfun hnull hdate harr hobj hne res hres e he
    simp only [Bool.not_eq_true] at hfun hnull hdate harr hobj
    rw [compareValues] at hres
    simp only [hfun, hnull, hdate, harr, hobj, hne, Bool.false_eq_true, reduceIte] at hres
    obtain rfl := (Except.ok.inj hres).symm
    obtain rfl := List.mem_singleton.mp he
    refine ⟨le_of_eq (congrArg String.length (getChangelog_path _ _ _ _ _).symm), fun _ hnote => ?_⟩
    rw [getChangelog_note] at hnote
    exact absurd hnote (by decide)
  · intro v1 v2 path hfun hnull hdate harr hobj hne res hres e he
    simp only [Bool.not_eq_true] at hfun hnull hdate harr hobj hne
    rw [compareValues] at hres
    simp only [hfun, hnull, hdate, harr, hobj, hne, Bool.false_eq_true, reduceIte] at hres
    obtain rfl := (Except.ok.inj hres).symm
    exact absurd he (List.not_mem_nil e)
  · intro prior latest path ihm res hres e he
    rw [deepObjectCompare] at hres
    cases hh : hashCompare prior latest with
    | error err =>
      rw [hh] at hres
      exact Except.noConfusion hres
    | ok b =>
      rw [hh] at hres
      cases b with
      | true =>
        have hres2 : (Except.ok [] : Except CmpError (List Entry)) = .ok res := hres
        obtain rfl := (Except.ok.inj hres2).symm
        exact absurd he (List.not_mem_nil e)
      | false =>
        cases prior
        case vObj fs =>
          have hres2 : Except.bind (compareKeysGo ign fil latest path fs)
              (fun fl => (Except.ok ((jsEntries latest).foldl (fun diffs kv =>
                if jsHasOwn (vObj fs) kv.1 then diffs
                else diffs ++ [getChangelog kv.2 vUndefined (path ++ "." ++ kv.1) .Added fil])
                fl) : Except CmpError (List Entry))) = .ok res := hres
          cases hk : compareKeysGo ign fil latest path fs with
          | error err =>
            rw [hk] at hres2
            exact Except.noConfusion hres2
          | ok fl =>
            rw [hk] at hres2
            have hr := sweep_keys_eq fil (vObj fs) latest path fl res hres2
            subst hr
            rcases List.mem_append.mp he with h1 | h1
            · exact ihm fl hk e h1
            · exact addedKeyEntries_path_length fil (vObj fs) latest path e h1
        case vArr xs =>
          have hres2 : Except.bind (compareIdxKeysGo ign fil latest path 0 xs)
              (fun fl => (Except.ok ((jsEntries latest).foldl (fun diffs kv =>
                if jsHasOwn (vArr xs) kv.1 then diffs
                else diffs ++ [getChangelog kv.2 vUndefined (path ++ "." ++ kv.1) .Added fil])
                fl) : Except CmpError (List Entry))) = .ok res := hres
          cases hk : compareIdxKeysGo ign fil latest path 0 xs with
          | error err =>
            rw [hk] at hres2
            exact Except.noConfusion hres2
          | ok fl =>
            rw [hk] at hres2
            have hr := sweep_keys_eq fil (vArr xs) latest path fl res hres2
            subst hr
            rcases List.mem_append.mp he with h1 | h1
            · exact ihm fl hk e h1
            · exact addedKeyEntries_path_length fil (vArr xs) latest path e h1
        all_goals {
          have hr := sweep_keys_eq fil _ latest path [] res hres
          subst hr
          rcases List.mem_append.mp he with h1 | h1
          · exact absurd h1 (List.not_mem_nil e)
          · exact addedKeyEntries_path_length fil _ latest path e h1 }
  · intro latest path i res hres e he
    rw [compareIdxKeysGo] at hres
    obtain rfl := (Except.ok.inj hres).symm
    exact absurd he (List.not_mem_nil e)
  · intro latest path i x rest hig ihrest res hres e he
    rw [compareIdxKeysGo] at hres
    simp only [hig, reduceIte] at hres
    cases hr : compareIdxKeysGo ign fil latest path (i + 1) rest with
    | error err =>
      rw [hr] at hres
      exact Except.noConfusion hres
    | ok ds =>
      rw [hr] at hres
      have hres2 : (Except.ok ([] ++ ds) : Except CmpError (List Entry)) = .ok res := hres
      have hds : res = [] ++ ds := (Except.ok.inj hres2).symm
      rw [List.nil_append] at hds
      exact ihrest ds hr e (hds ▸ he)
  · intro latest path i x rest hig ihrest ihv res hres e he
    rw [compareIdxKeysGo] at hres
    simp only [hig, reduceIte] at hres
    cases hd : compareValues ign fil x (objGet latest (toString i))
        (path ++ "." ++ toString i) with
    | error err =>
      rw [hd] at hres
      exact Except.noConfusion hres
    | ok d =>
      rw [hd] at hres
      cases hr : compareIdxKeysGo ign fil latest path (i + 1) rest with
      | error err =>
        rw [hr] at hres
        exact Except.noConfusion hres
      | ok ds =>
        rw [hr] at hres
        have hres2 : (Except.ok (d ++ ds) : Except CmpError (List Entry)) = .ok res := hres
        obtain rfl := (Except.ok.inj hres2).symm
        rcases List.mem_append.mp he with h1 | h1
        · have h2 := (ihv d hd e h1).1
          have h3 := length_lt_append_dot path (toString i)
          omega
        · exact ihrest ds hr e h1
  · intro latest path res hres e he
    rw [compareKeysGo] at hres
    obtain rfl := (Except.ok.inj hres).symm
    exact absurd he (List.not_mem_nil e)
  · intro latest path k v2 rest hig ihrest res hres e he
    rw [compareKeysGo] at hres
    simp only [hig, reduceIte] at hres
    cases hr : compareKeysGo ign fil latest path rest with
    | error err =>
      rw [hr] at hres
      exact Except.noConfusion hres
    | ok ds =>
      rw [hr] at hres
      have hres2 : (Except.ok ([] ++ ds) : Except CmpError (List Entry)) = .ok res := hres
      have hds : res = [] ++ ds := (Except.ok.inj hres2).symm
      rw [List.nil_append] at hds
      exact ihrest ds hr e (hds ▸ he)
  · intro latest path k v2 rest hig ihrest ihv res hres e he
    rw [compareKeysGo] at hres
    simp only [hig, reduceIte] at hres
    cases hd : compareValues ign fil v2 (objGet latest k) (path ++ "." ++ k) with
    | error err =>
      rw [hd] at hres
      exact Except.noConfusion hres
    | ok d =>
      rw [hd] at hres
      cases hr : compareKeysGo ign fil latest path rest with
      | error err =>
        rw [hr] at hres
        exact Except.noConfusion hres
      | ok ds =>
        rw [hr] at hres
        have hres2 : (Except.ok (d ++ ds) : Except CmpError (List Entry)) = .ok res := hres
        obtain rfl := (Except.ok.inj hres2).symm
        rcases List.mem_append.mp he with h1 | h1
        · have h2 := (ihv d hd e h1).1
          have h3 := length_lt_append_dot path k
          omega
        · exact ihrest ds hr e h1
  · intro prior latest path ihm res hres e he
    rw [deepArrayCompare.eq_def] at hres
    cases hh : hashCompare prior latest with
    | error err =>
      rw [hh] at hres
      exact Except.noConfusion hres
    | ok b =>
      rw [hh] at hres
      cases b with
      | true =>
        have hres2 : (Except.ok [] : Except CmpError (List Entry)) = .ok res := hres
        obtain rfl := (Except.ok.inj hres2).symm
        exact absurd he (List.not_mem_nil e)
      | false =>
        cases prior
        case vArr xs =>
          cases latest
          case vArr ys =>
            have hres2 : Except.bind (compareElemsGo ign fil ys path 0 xs)
                (fun fl => (Except.ok (((ys.drop xs.length).enum).foldl (fun diffs p =>
                  diffs ++ [getChangelog p.2 vUndefined
                    (path ++ "[" ++ toString (p.1 + xs.length) ++ "]") .Added fil])
                  fl) : Except CmpError (List Entry))) = .ok res := hres
            cases hk : compareElemsGo ign fil ys path 0 xs with
            | error err =>
              rw [hk] at hres2
              exact Except.noConfusion hres2
            | ok fl =>
              rw [hk] at hres2
              have hr := sweep_elems_eq fil xs ys path fl res hres2
              subst hr
              rcases List.mem_append.mp he with h1 | h1
              · exact ihm fl hk e h1
              · exact addedElemEntries_path_length fil xs ys path e h1
          all_goals {
            have hres2 : (Except.ok [] : Except CmpError (List Entry)) = .ok res := hres
            obtain rfl := (Except.ok.inj hres2).symm
            exact absurd he (List.not_mem_nil e) }
        all_goals {
          have hres2 : (Except.ok [] : Except CmpError (List Entry)) = .ok res := hres
          obtain rfl := (Except.ok.inj hres2).symm
          exact absurd he (List.not_mem_nil e) }
  · intro ys path i res hres e he
    rw [compareElemsGo] at hres
    obtain rfl := (Except.ok.inj hres).symm
    exact absurd he (List.not_mem_nil e)
  · intro ys path i x rest ihv ihrest res hres e he
    rw [compareElemsGo] at hres
    cases hd : compareValues ign fil x (jsIndex ys i)
        (path ++ "[" ++ toString i ++ "]") with
    | error err =>
      rw [hd] at hres
      exact Except.noConfusion hres
    | ok d =>
      rw [hd] at hres
      cases hr : compareElemsGo ign fil ys path (i + 1) rest with
      | error err =>
        rw [hr] at hres
        exact Except.noConfusion hres
      | ok ds =>
        rw [hr] at hres
        have hres2 : (Except.ok (d ++ ds) : Except CmpError (List Entry)) = .ok res := hres
        obtain rfl := (Except.ok.inj hres2).symm
        rcases List.mem_append.mp he with h1 | h1
        · have h2 := (ihv d hd e h1).1
          have h3 := length_lt_append_bracket path (toString i)
          omega
        · exact ihrest ds hr e h1

/-! ## Claim C1 (Deleted iff absent; trailing Added entries) -/

/-- C1 counterexample: the claim states a Deleted entry is emitted at `p.k`
*iff* `k` is absent in `latest`.  For `prior = {a: 1}`, `latest = {a: null}`
the key `a` is present in `latest`, yet the comparison emits a Deleted
entry at `root.a`, because `compareValues` tests `value2 == null` (which an
explicit `null` value satisfies) rather than key absence. -/
theorem C1_deleted_counterexample :
    deepCompare none none (vObj [("a", vNum 1)]) (vObj [("a", vNull)]) "root"
      = .ok [⟨"root.a", some (vNum 1), none, "Deleted"⟩]
    ∧ jsHasOwn (vObj [("a", vNull)]) "a" = true := by
  constructor
  · simp +decide [deepCompare, deepObjectCompare, compareKeysGo, compareValues,
      hashCompare, computeHash, jsonStringify, jsonObjItems, jsonQuote, escChar,
      getChangelog, filterObjectKeys, jsEntries, jsHasOwn, objGet, ignoresKey]
    rfl
  · rfl

/-- C1 amended: in the per-key/per-index comparison, (i) a single Deleted
entry carrying the prior value is emitted at the current path exactly when
the co-located latest value is null or undefined (an absent key or
out-of-range index reads as `undefined`, but an explicit `null` also
qualifies); (ii) when the latest value is not null/undefined, no Deleted
entry is produced at that exact path; (iii) a sequence pair not pruned by
the hash shortcut decomposes into per-index comparisons (where
`latest[i]` is `undefined` for every `i ≥ latest.length`, feeding (i))
followed by the Added entries for the trailing elements of `latest`, in
order, at the indices continuing from `prior.length`; and (iv) the index
read beyond `latest.length` is indeed `undefined`. -/
theorem C1_deleted_amended :
    (∀ (ign fil : Option (List String)) (v w : JVal) (p : String),
      v.isFun = false → w.isFun = false → w.isNullish = true →
      compareValues ign fil v w p = .ok [getChangelog v vUndefined p .Deleted fil])
    ∧ (∀ (ign fil : Option (List String)) (v w : JVal) (p : String) (res : List Entry),
        w.isNullish = false → compareValues ign fil v w p = .ok res →
        ∀ e ∈ res, e.path = p → e.note ≠ "Deleted")
    ∧ (∀ (ign fil : Option (List String)) (xs ys : List JVal) (p : String),
        hashCompare (vArr xs) (vArr ys) = .ok false →
        deepArrayCompare ign fil (vArr xs) (vArr ys) p
          = Except.map (fun ns => ns.flatten ++ addedElemEntries fil xs ys p)
              ((xs.enumFrom 0).mapM (perElemDiff ign fil ys p)))
    ∧ (∀ (ys : List JVal) (i : Nat), ys.length ≤ i → jsIndex ys i = vUndefined) := by
  refine ⟨?_, ?_, ?_, ?_⟩
  · intro ign fil v w p hv hw hn
    rw [compareValues]
    rw [hv, hw, hn]
    rfl
  · intro ign fil v w p res hn hres e he hp hnote
    have h2 := (compareValues_entries_inv ign fil v w p res hres e he).2 hp hnote
    rw [hn] at h2
    exact Bool.false_ne_true h2
  · intro ign fil xs ys p hh
    exact deepArrayCompare_arr_eq ign fil xs ys p hh
  · intro ys i h
    exact List.getD_eq_default ys vUndefined h

/-- C1 witness: conjunct (i) applied to a deleted key — the latest value is
`undefined` because the key is absent — at the concrete path `root.c`. -/
theorem C1_deleted_witness :
    (vNum 3).isFun = false ∧ vUndefined.isNullish = true
    ∧ compareValues none none (vNum 3) vUndefined "root.c"
        = .ok [getChangelog (vNum 3) vUndefined "root.c" .Deleted none] :=
  ⟨by decide, by decide,
    C1_deleted_amended.1 none none (vNum 3) vUndefined "root.c" (by decide) (by decide) (by decide)⟩

/-! ## Claim C6 (changelog order = traversal order, positional collection) -/

/-- C6: at each level the changelog is exactly the positional concatenation
of the per-prior-entry comparison results, in `prior`'s key (resp. index)
order, followed by the Added entries for latest-only keys (resp. trailing
elements) in `latest`'s order.  The `mapM` on the right is the sequential,
positional collection of the per-entry tasks — the very order `Promise.all`
restores regardless of completion order — so the sequential model's output
order is the contract order. -/
theorem C6_ordering :
    (∀ (ign fil : Option (List String)) (fs : List (String × JVal))
        (latest : JVal) (path : String),
      hashCompare (vObj fs) latest = .ok false →
      deepObjectCompare ign fil (vObj fs) latest path
        = Except.map (fun ns => ns.flatten ++ addedKeyEntries fil (vObj fs) latest path)
            (fs.mapM (perKeyDiff ign fil latest path)))
    ∧ (∀ (ign fil : Option (List String)) (xs ys : List JVal) (path : String),
        hashCompare (vArr xs) (vArr ys) = .ok false →
        deepArrayCompare ign fil (vArr xs) (vArr ys) path
          = Except.map (fun ns => ns.flatten ++ addedElemEntries fil xs ys path)
              ((xs.enumFrom 0).mapM (perElemDiff ign fil ys path))) :=
  ⟨deepObjectCompare_obj_eq, deepArrayCompare_arr_eq⟩

/-- C6 witness: the mapping-level decomposition at a concrete unequal
pair. -/
theorem C6_ordering_witness :
    hashCompare (vObj [("a", vNum 1)]) (vObj [("a", vNum 2)]) = .ok false
    ∧ deepObjectCompare none none (vObj [("a", vNum 1)]) (vObj [("a", vNum 2)]) "root"
        = Except.map (fun ns => ns.flatten
            ++ addedKeyEntries none (vObj [("a", vNum 1)]) (vObj [("a", vNum 2)]) "root")
            ([("a", vNum 1)].mapM (perKeyDiff none none (vObj [("a", vNum 2)]) "root")) :=
  ⟨by rfl, C6_ordering.1 none none [("a", vNum 1)] (vObj [("a", vNum 2)]) "root" (by rfl)⟩

/-! ## Claim C8: `keysToFilter` never affects detection

The observable signature of a result is its sequence of `(path, note)`
pairs.  Changing the filter list changes only the redacted `oldVal`/`newVal`
payloads, never the signature, proven by one joint induction over the
comparator. -/

/-- The `(path, note)` signature of one entry. -/
def entrySig (e : Entry) : String × String := (e.path, e.note)

/-- The `(path, note)` signature of a whole result (errors unchanged). -/
def resSig (r : Except CmpError (List Entry)) : Except CmpError (List (String × String)) :=
  Except.map (List.map entrySig) r

/-- `compareValues` has the same signature under two filter lists. -/
def SigCV (ign fil : Option (List String)) (v w : JVal) (p : String) : Prop :=
  ∀ fil2, resSig (compareValues ign fil v w p) = resSig (compareValues ign fil2 v w p)

/-- `deepObjectCompare` has the same signature under two filter lists. -/
def SigObj (ign fil : Option (List String)) (prior latest : JVal) (p : String) : Prop :=
  ∀ fil2, resSig (deepObjectCompare ign fil prior latest p)
    = resSig (deepObjectCompare ign fil2 prior latest p)

/-- `compareIdxKeysGo` has the same signature under two filter lists. -/
def SigIdx (ign fil : Option (List String)) (latest : JVal) (p : String)
    (i : Nat) (xs : List JVal) : Prop :=
  ∀ fil2, resSig (compareIdxKeysGo ign fil latest p i xs)
    = resSig (compareIdxKeysGo ign fil2 latest p i xs)

/-- `compareKeysGo` has the same signature under two filter lists. -/
def SigKeys (ign fil : Option (List String)) (latest : JVal) (p : String)
    (fs : List (String × JVal)) : Prop :=
  ∀ fil2, resSig (compareKeysGo ign fil latest p fs)
    = resSig (compareKeysGo ign fil2 latest p fs)

/-- `deepArrayCompare` has the same signature under two filter lists. -/
def SigArr (ign fil : Option (List String)) (prior latest : JVal) (p : String) : Prop :=
  ∀ fil2, resSig (deepArrayCompare ign fil prior latest p)
    = resSig (deepArrayCompare ign fil2 prior latest p)

/-- `compareElemsGo` has the same signature under two filter lists. -/
def SigElems (ign fil : Option (List String)) (ys : List JVal) (p : String)
    (i : Nat) (xs : List JVal) : Prop :=
  ∀ fil2, resSig (compareElemsGo ign fil ys p i xs)
    = resSig (compareElemsGo ign fil2 ys p i xs)

theorem entrySig_getChangelog (a b : JVal) (p : String) (dt : DiffType)
    (fil : Option (List String)) :
    entrySig (getChangelog a b p dt fil)
      = (p, match dt with
            | .Deleted => "Deleted" | .Updated => "Updated" | .Added => "Added") := by
  cases dt <;> rfl

theorem resSig_error_match (r1 r2 : Except CmpError (List Entry)) (err : CmpError)
    (h : resSig r1 = resSig r2) (h1 : r1 = .error err) : r2 = .error err := by
  subst h1
  cases r2 with
  | error e2 =>
    have h2 : (Except.error err : Except CmpError (List (String × String))) = .error e2 := h
    rw [Except.error.inj h2]
  | ok l2 =>
    have h2 : (Except.error err : Except CmpError (List (String × String)))
        = .ok (l2.map entrySig) := h
    exact Except.noConfusion h2

theorem resSig_ok_match (r1 r2 : Except CmpError (List Entry)) (l1 : List Entry)
    (h : resSig r1 = resSig r2) (h1 : r1 = .ok l1) :
    ∃ l2, r2 = .ok l2 ∧ l1.map entrySig = l2.map entrySig := by
  subst h1
  cases r2 with
  | error e2 =>
    have h2 : (Except.ok (l1.map entrySig) : Except CmpError (List (String × String)))
        = .error e2 := h
    exact Except.noConfusion h2
  | ok l2 =>
    have h2 : (Except.ok (l1.map entrySig) : Except CmpError (List (String × String)))
        = .ok (l2.map entrySig) := h
    exact ⟨l2, rfl, Except.ok.inj h2⟩

theorem addedKeyEntries_sig (fil fil2 : Option (List String)) (prior latest : JVal)
    (p : String) :
    (addedKeyEntries fil prior latest p).map entrySig
      = (addedKeyEntries fil2 prior latest p).map entrySig := by
  unfold addedKeyEntries
  rw [List.map_map, List.map_map]
  apply List.map_congr_left
  intro kv _
  show entrySig (getChangelog kv.2 vUndefined (p ++ "." ++ kv.1) .Added fil)
    = entrySig (getChangelog kv.2 vUndefined (p ++ "." ++ kv.1) .Added fil2)
  rw [entrySig_getChangelog, entrySig_getChangelog]

theorem addedElemEntries_sig (fil fil2 : Option (List String)) (xs ys : List JVal)
    (p : String) :
    (addedElemEntries fil xs ys p).map entrySig
      = (addedElemEntries fil2 xs ys p).map entrySig := by
  unfold addedElemEntries
  rw [List.map_map, List.map_map]
  apply List.map_congr_left
  intro q _
  show entrySig (getChangelog q.2 vUndefined
      (p ++ "[" ++ toString (q.1 + xs.length) ++ "]") .Added fil)
    = entrySig (getChangelog q.2 vUndefined
      (p ++ "[" ++ toString (q.1 + xs.length) ++ "]") .Added fil2)
  rw [entrySig_getChangelog, entrySig_getChangelog]

theorem sweepKeys_sig (fil fil2 : Option (List String)) (prior latest : JVal)
    (p : String) (fl1 fl2 : List Entry) (hsig : fl1.map entrySig = fl2.map entrySig) :
    List.map entrySig ((jsEntries latest).foldl (fun diffs kv =>
      if jsHasOwn prior kv.1 then diffs
      else diffs ++ [getChangelog kv.2 vUndefined (p ++ "." ++ kv.1) .Added fil]) fl1)
    = List.map entrySig ((jsEntries latest).foldl (fun diffs kv =>
      if jsHasOwn prior kv.1 then diffs
      else diffs ++ [getChangelog kv.2 vUndefined (p ++ "." ++ kv.1) .Added fil2]) fl2) := by
  have e1 := foldl_filterPush (fun kv : String × JVal => jsHasOwn prior kv.1)
    (fun kv : String × JVal => getChangelog kv.2 vUndefined (p ++ "." ++ kv.1) .Added fil)
    (jsEntries latest) fl1
  have e2 := foldl_filterPush (fun kv : String × JVal => jsHasOwn prior kv.1)
    (fun kv : String × JVal => getChangelog kv.2 vUndefined (p ++ "." ++ kv.1) .Added fil2)
    (jsEntries latest) fl2
  refine Eq.trans (congrArg (List.map entrySig) e1)
    (Eq.trans ?_ (congrArg (List.map entrySig) e2).symm)
  rw [List.map_append, List.map_append, hsig]
  congr 1
  rw [List.map_map, List.map_map]
  apply List.map_congr_left
  intro kv _
  show entrySig (getChangelog kv.2 vUndefined (p ++ "." ++ kv.1) .Added fil)
    = entrySig (getChangelog kv.2 vUndefined (p ++ "." ++ kv.1) .Added fil2)
  rw [entrySig_getChangelog, entrySig_getChangelog]

theorem sweepElems_sig (fil fil2 : Option (List String)) (xs ys : List JVal)
    (p : String) (fl1 fl2 : List Entry) (hsig : fl1.map entrySig = fl2.map entrySig) :
    List.map entrySig (((ys.drop xs.length).enum).foldl (fun diffs q =>
      diffs ++ [getChangelog q.2 vUndefined
        (p ++ "[" ++ toString (q.1 + xs.length) ++ "]") .Added fil]) fl1)
    = List.map entrySig (((ys.drop xs.length).enum).foldl (fun diffs q =>
      diffs ++ [getChangelog q.2 vUndefined
        (p ++ "[" ++ toString (q.1 + xs.length) ++ "]") .Added fil2]) fl2) := by
  have e1 := foldl_push (fun q : Nat × JVal => getChangelog q.2 vUndefined
    (p ++ "[" ++ toString (q.1 + xs.length) ++ "]") .Added fil) ((ys.drop xs.length).enum) fl1
  have e2 := foldl_push (fun q : Nat × JVal => getChangelog q.2 vUndefined
    (p ++ "[" ++ toString (q.1 + xs.length) ++ "]") .Added fil2) ((ys.drop xs.length).enum) fl2
  refine Eq.trans (congrArg (List.map entrySig) e1)
    (Eq.trans ?_ (congrArg (List.map entrySig) e2).symm)
  rw [List.map_append, List.map_append, hsig]
  congr 1
  rw [List.map_map, List.map_map]
  apply List.map_congr_left
  intro q _
  show entrySig (getChangelog q.2 vUndefined
      (p ++ "[" ++ toString (q.1 + xs.length) ++ "]") .Added fil)
    = entrySig (getChangelog q.2 vUndefined
      (p ++ "[" ++ toString (q.1 + xs.length) ++ "]") .Added fil2)
  rw [entrySig_getChangelog, entrySig_getChangelog]

theorem sigCase1 (ign fil : Option (List String)) :
    ∀ (v1 v2 : JVal) (p : String), (v1.isFun || v2.isFun) = true →
      SigCV ign fil v1 v2 p := by
  intro v1 v2 p h fil2
  simp only [SigCV, resSig, compareValues, h, reduceIte]

theorem sigCase2 (ign fil : Option (List String)) :
    ∀ (v1 v2 : JVal) (p : String), ¬(v1.isFun || v2.isFun) = true →
      v2.isNullish = true → SigCV ign fil v1 v2 p := by
  intro v1 v2 p hfun hnull fil2
  simp only [Bool.not_eq_true] at hfun
  simp only [compareValues, hfun, hnull, Bool.false_eq_true, reduceIte]
  show Except.ok [entrySig (getChangelog v1 vUndefined p .Deleted fil)]
    = Except.ok [entrySig (getChangelog v1 vUndefined p .Deleted fil2)]
  rw [entrySig_getChangelog, entrySig_getChangelog]

theorem sigCase3 (ign fil : Option (List String)) :
    ∀ (v1 v2 : JVal) (p : String), ¬(v1.isFun || v2.isFun) = true →
      ¬v2.isNullish = true →
      (areBothDates v1 v2 && v1.getTime != v2.getTime) = true →
      SigCV ign fil v1 v2 p := by
  intro v1 v2 p hfun hnull hdate fil2
  simp only [Bool.not_eq_true] at hfun hnull
  simp only [compareValues, hfun, hnull, hdate, Bool.false_eq_true, reduceIte]
  show Except.ok [entrySig (getChangelog v1 v2 p .Updated fil)]
    = Except.ok [entrySig (getChangelog v1 v2 p .Updated fil2)]
  rw [entrySig_getChangelog, entrySig_getChangelog]

theorem sigCase4 (ign fil : Option (List String)) :
    ∀ (v1 v2 : JVal) (p : String), ¬(v1.isFun || v2.isFun) = true →
      ¬v2.isNullish = true →
      ¬(areBothDates v1 v2 && v1.getTime != v2.getTime) = true →
      areBothArrays v1 v2 = true →
      SigArr ign fil v1 v2 p → SigCV ign fil v1 v2 p := by
  intro v1 v2 p hfun hnull hdate harr ih fil2
  simp only [Bool.not_eq_true] at hfun hnull hdate
  simp only [compareValues, hfun, hnull, hdate, harr, Bool.false_eq_true, reduceIte]
  exact ih fil2

theorem sigCase5 (ign fil : Option (List String)) :
    ∀ (v1 v2 : JVal) (p : String), ¬(v1.isFun || v2.isFun) = true →
      ¬v2.isNullish = true →
      ¬(areBothDates v1 v2 && v1.getTime != v2.getTime) = true →
      ¬areBothArrays v1 v2 = true →
      areBothObjects v1 v2 = true →
      SigObj ign fil v1 v2 p → SigCV ign fil v1 v2 p := by
  intro v1 v2 p hfun hnull hdate harr hobj ih fil2
  simp only [Bool.not_eq_true] at hfun hnull hdate harr
  simp only [compareValues, hfun, hnull, hdate, harr, hobj, Bool.false_eq_true, reduceIte]
  exact ih fil2

theorem sigCase6 (ign fil : Option (List String)) :
    ∀ (v1 v2 : JVal) (p : String), ¬(v1.isFun || v2.isFun) = true →
      ¬v2.isNullish = true →
      ¬(areBothDates v1 v2 && v1.getTime != v2.getTime) = true →
      ¬areBothArrays v1 v2 = true → ¬areBothObjects v1 v2 = true →
      (!jsStrictEq v1 v2) = true → SigCV ign fil v1 v2 p := by
  intro v1 v2 p hfun hnull hdate harr hobj hne fil2
  simp only [Bool.not_eq_true] at hfun hnull hdate harr hobj
  simp only [compareValues, hfun, hnull, hdate, harr, hobj, hne, Bool.false_eq_true, reduceIte]
  show Except.ok [entrySig (getChangelog v1 v2 p .Updated fil)]
    = Except.ok [entrySig (getChangelog v1 v2 p .Updated fil2)]
  rw [entrySig_getChangelog, entrySig_getChangelog]

theorem sigCase7 (ign fil : Option (List String)) :
    ∀ (v1 v2 : JVal) (p : String), ¬(v1.isFun || v2.isFun) = true →
      ¬v2.isNullish = true →
      ¬(areBothDates v1 v2 && v1.getTime != v2.getTime) = true →
      ¬areBothArrays v1 v2 = true → ¬areBothObjects v1 v2 = true →
      ¬(!jsStrictEq v1 v2) = true → SigCV ign fil v1 v2 p := by
  intro v1 v2 p hfun hnull hdate harr hobj hne fil2
  simp only [Bool.not_eq_true] at hfun hnull hdate harr hobj hne
  simp only [compareValues, hfun, hnull, hdate, harr, hobj, hne, Bool.false_eq_true, reduceIte]

theorem sigCase8 (ign fil : Option (List String)) :
    ∀ (prior latest : JVal) (p : String),
      (match prior with
       | vObj fs => SigKeys ign fil latest p fs
       | vArr xs => SigIdx ign fil latest p 0 xs
       | _ => True) →
      SigObj ign fil prior latest p := by
  intro prior latest p ihm fil2
  simp only [deepObjectCompare]
  cases hh : hashCompare prior latest with
  | error err => rfl
  | ok b =>
    cases b with
    | true => rfl
    | false =>
      cases prior
      case vObj fs =>
        have ih4 : SigKeys ign fil latest p fs := ihm
        show resSig (Except.bind (compareKeysGo ign fil latest p fs)
            (fun fl => (Except.ok ((jsEntries latest).foldl (fun diffs kv =>
              if jsHasOwn (vObj fs) kv.1 then diffs
              else diffs ++ [getChangelog kv.2 vUndefined (p ++ "." ++ kv.1) .Added fil]) fl)
              : Except CmpError (List Entry))))
          = resSig (Except.bind (compareKeysGo ign fil2 latest p fs)
            (fun fl => (Except.ok ((jsEntries latest).foldl (fun diffs kv =>
              if jsHasOwn (vObj fs) kv.1 then diffs
              else diffs ++ [getChangelog kv.2 vUndefined (p ++ "." ++ kv.1) .Added fil2]) fl)
              : Except CmpError (List Entry))))
        cases hk1 : compareKeysGo ign fil latest p fs with
        | error err =>
          have hk2 := resSig_error_match _ _ err (ih4 fil2) hk1
          rw [hk2]
          rfl
        | ok fl1 =>
          obtain ⟨fl2, hk2, hsig⟩ := resSig_ok_match _ _ fl1 (ih4 fil2) hk1
          rw [hk2]
          exact congrArg Except.ok (sweepKeys_sig fil fil2 (vObj fs) latest p fl1 fl2 hsig)
      case vArr xs =>
        have ih3 : SigIdx ign fil latest p 0 xs := ihm
        show resSig (Except.bind (compareIdxKeysGo ign fil latest p 0 xs)
            (fun fl => (Except.ok ((jsEntries latest).foldl (fun diffs kv =>
              if jsHasOwn (vArr xs) kv.1 then diffs
              else diffs ++ [getChangelog kv.2 vUndefined (p ++ "." ++ kv.1) .Added fil]) fl)
              : Except CmpError (List Entry))))
          = resSig (Except.bind (compareIdxKeysGo ign fil2 latest p 0 xs)
            (fun fl => (Except.ok ((jsEntries latest).foldl (fun diffs kv =>
              if jsHasOwn (vArr xs) kv.1 then diffs
              else diffs ++ [getChangelog kv.2 vUndefined (p ++ "." ++ kv.1) .Added fil2]) fl)
              : Except CmpError (List Entry))))
        cases hk1 : compareIdxKeysGo ign fil latest p 0 xs with
        | error err =>
          have hk2 := resSig_error_match _ _ err (ih3 fil2) hk1
          rw [hk2]
          rfl
        | ok fl1 =>
          obtain ⟨fl2, hk2, hsig⟩ := resSig_ok_match _ _ fl1 (ih3 fil2) hk1
          rw [hk2]
          exact congrArg Except.ok (sweepKeys_sig fil fil2 (vArr xs) latest p fl1 fl2 hsig)
      all_goals exact congrArg Except.ok (sweepKeys_sig fil fil2 _ latest p [] [] rfl)

theorem sigCase9 (ign fil : Option (List String)) :
    ∀ (latest : JVal) (p : String) (i : Nat), SigIdx ign fil latest p i [] := by
  intro latest p i fil2
  simp only [compareIdxKeysGo]

theorem sigCase10 (ign fil : Option (List String)) :
    ∀ (latest : JVal) (p : String) (i : Nat) (x : JVal) (rest : List JVal),
      ignoresKey ign (toString i) = true →
      SigIdx ign fil latest p (i + 1) rest → SigIdx ign fil latest p i (x :: rest) := by
  intro latest p i x rest hig ihrest fil2
  simp only [compareIdxKeysGo, hig, reduceIte]
  cases hr1 : compareIdxKeysGo ign fil latest p (i + 1) rest with
  | error err =>
    have hr2 := resSig_error_match _ _ err (ihrest fil2) hr1
    rw [hr2]
  | ok ds1 =>
    obtain ⟨ds2, hr2, hsig⟩ := resSig_ok_match _ _ ds1 (ihrest fil2) hr1
    rw [hr2]
    show Except.ok (List.map entrySig ([] ++ ds1)) = Except.ok (List.map entrySig ([] ++ ds2))
    rw [List.nil_append, List.nil_append, hsig]

theorem sigCase11 (ign fil : Option (List String)) :
    ∀ (latest : JVal) (p : String) (i : Nat) (x : JVal) (rest : List JVal),
      ¬ignoresKey ign (toString i) = true →
      SigIdx ign fil latest p (i + 1) rest →
      SigCV ign fil x (objGet latest (toString i)) (p ++ "." ++ toString i) →
      SigIdx ign fil latest p i (x :: rest) := by
  intro latest p i x rest hig ihrest ihv fil2
  simp only [Bool.not_eq_true] at hig
  simp only [compareIdxKeysGo, hig, Bool.false_eq_true, reduceIte]
  cases hd1 : compareValues ign fil x (objGet latest (toString i)) (p ++ "." ++ toString i) with
  | error err =>
    have hd2 := resSig_error_match _ _ err (ihv fil2) hd1
    rw [hd2]
    rfl
  | ok d1 =>
    obtain ⟨d2, hd2, hsigd⟩ := resSig_ok_match _ _ d1 (ihv fil2) hd1
    rw [hd2]
    cases hr1 : compareIdxKeysGo ign fil latest p (i + 1) rest with
    | error err =>
      have hr2 := resSig_error_match _ _ err (ihrest fil2) hr1
      rw [hr2]
      rfl
    | ok ds1 =>
      obtain ⟨ds2, hr2, hsigr⟩ := resSig_ok_match _ _ ds1 (ihrest fil2) hr1
      rw [hr2]
      show Except.ok (List.map entrySig (d1 ++ ds1)) = Except.ok (List.map entrySig (d2 ++ ds2))
      rw [List.map_append, List.map_append, hsigd, hsigr]

theorem sigCase12 (ign fil : Option (List String)) :
    ∀ (latest : JVal) (p : String), SigKeys ign fil latest p [] := by
  intro latest p fil2
  simp only [compareKeysGo]

theorem sigCase13 (ign fil : Option (List String)) :
    ∀ (latest : JVal) (p k : String) (v : JVal) (rest : List (String × JVal)),
      ignoresKey ign k = true →
      SigKeys ign fil latest p rest → SigKeys ign fil latest p ((k, v) :: rest) := by
  intro latest p k v rest hig ihrest fil2
  simp only [compareKeysGo, hig, reduceIte]
  cases hr1 : compareKeysGo ign fil latest p rest with
  | error err =>
    have hr2 := resSig_error_match _ _ err (ihrest fil2) hr1
    rw [hr2]
  | ok ds1 =>
    obtain ⟨ds2, hr2, hsig⟩ := resSig_ok_match _ _ ds1 (ihrest fil2) hr1
    rw [hr2]
    show Except.ok (List.map entrySig ([] ++ ds1)) = Except.ok (List.map entrySig ([] ++ ds2))
    rw [List.nil_append, List.nil_append, hsig]

theorem sigCase14 (ign fil : Option (List String)) :
    ∀ (latest : JVal) (p k : String) (v : JVal) (rest : List (String × JVal)),
      ¬ignoresKey ign k = true →
      SigKeys ign fil latest p rest →
      SigCV ign fil v (objGet latest k) (p ++ "." ++ k) →
      SigKeys ign fil latest p ((k, v) :: rest) := by
  intro latest p k v rest hig ihrest ihv fil2
  simp only [Bool.not_eq_true] at hig
  simp only [compareKeysGo, hig, Bool.false_eq_true, reduceIte]
  cases hd1 : compareValues ign fil v (objGet latest k) (p ++ "." ++ k) with
  | error err =>
    have hd2 := resSig_error_match _ _ err (ihv fil2) hd1
    rw [hd2]
    rfl
  | ok d1 =>
    obtain ⟨d2, hd2, hsigd⟩ := resSig_ok_match _ _ d1 (ihv fil2) hd1
    rw [hd2]
    cases hr1 : compareKeysGo ign fil latest p rest with
    | error err =>
      have hr2 := resSig_error_match _ _ err (ihrest fil2) hr1
      rw [hr2]
      rfl
    | ok ds1 =>
      obtain ⟨ds2, hr2, hsigr⟩ := resSig_ok_match _ _ ds1 (ihrest fil2) hr1
      rw [hr2]
      show Except.ok (List.map entrySig (d1 ++ ds1)) = Except.ok (List.map entrySig (d2 ++ ds2))
      rw [List.map_append, List.map_append, hsigd, hsigr]

theorem sigCase15 (ign fil : Option (List String)) :
    ∀ (prior latest : JVal) (p : String),
      (match prior, latest with
       | vArr xs, vArr ys => SigElems ign fil ys p 0 xs
       | _, _ => True) →
      SigArr ign fil prior latest p := by
  intro prior latest p ihm fil2
  simp only [deepArrayCompare.eq_def]
  cases hh : hashCompare prior latest with
  | error err => rfl
  | ok b =>
    cases b with
    | true => rfl
    | false =>
      cases prior
      case vArr xs =>
        cases latest
        case vArr ys =>
          have ih6 : SigElems ign fil ys p 0 xs := ihm
          show resSig (Except.bind (compareElemsGo ign fil ys p 0 xs)
              (fun fl => (Except.ok (((ys.drop xs.length).enum).foldl (fun diffs q =>
                diffs ++ [getChangelog q.2 vUndefined
                  (p ++ "[" ++ toString (q.1 + xs.length) ++ "]") .Added fil]) fl)
                : Except CmpError (List Entry))))
            = resSig (Except.bind (compareElemsGo ign fil2 ys p 0 xs)
              (fun fl => (Except.ok (((ys.drop xs.length).enum).foldl (fun diffs q =>
                diffs ++ [getChangelog q.2 vUndefined
                  (p ++ "[" ++ toString (q.1 + xs.length) ++ "]") .Added fil2]) fl)
                : Except CmpError (List Entry))))
          cases he1 : compareElemsGo ign fil ys p 0 xs with
          | error err =>
            have he2 := resSig_error_match _ _ err (ih6 fil2) he1
            rw [he2]
            rfl
          | ok fl1 =>
            obtain ⟨fl2, he2, hsig⟩ := resSig_ok_match _ _ fl1 (ih6 fil2) he1
            rw [he2]
            exact congrArg Except.ok (sweepElems_sig fil fil2 xs ys p fl1 fl2 hsig)
        all_goals rfl
      all_goals rfl

theorem sigCase16 (ign fil : Option (List String)) :
    ∀ (ys : List JVal) (p : String) (i : Nat), SigElems ign fil ys p i [] := by
  intro ys p i fil2
  simp only [compareElemsGo]

theorem sigCase17 (ign fil : Option (List String)) :
    ∀ (ys : List JVal) (p : String) (i : Nat) (x : JVal) (rest : List JVal),
      SigCV ign fil x (jsIndex ys i) (p ++ "[" ++ toString i ++ "]") →
      SigElems ign fil ys p (i + 1) rest → SigElems ign fil ys p i (x :: rest) := by
  intro ys p i x rest ihv ihrest fil2
  simp only [compareElemsGo]
  cases hd1 : compareValues ign fil x (jsIndex ys i) (p ++ "[" ++ toString i ++ "]") with
  | error err =>
    have hd2 := resSig_error_match _ _ err (ihv fil2) hd1
    rw [hd2]
    rfl
  | ok d1 =>
    obtain ⟨d2, hd2, hsigd⟩ := resSig_ok_match _ _ d1 (ihv fil2) hd1
    rw [hd2]
    cases hr1 : compareElemsGo ign fil ys p (i + 1) rest with
    | error err =>
      have hr2 := resSig_error_match _ _ err (ihrest fil2) hr1
      rw [hr2]
      rfl
    | ok ds1 =>
      obtain ⟨ds2, hr2, hsigr⟩ := resSig_ok_match _ _ ds1 (ihrest fil2) hr1
      rw [hr2]
      show Except.ok (List.map entrySig (d1 ++ ds1)) = Except.ok (List.map entrySig (d2 ++ ds2))
      rw [List.map_append, List.map_append, hsigd, hsigr]

theorem deepObjectCompare_sig (ign fil : Option (List String)) (prior latest : JVal)
    (p : String) : SigObj ign fil prior latest p :=
  deepObjectCompare.induct ign fil (SigCV ign fil) (SigObj ign fil) (SigIdx ign fil)
    (SigKeys ign fil) (SigArr ign fil) (SigElems ign fil)
    (sigCase1 ign fil) (sigCase2 ign fil) (sigCase3 ign fil) (sigCase4 ign fil)
    (sigCase5 ign fil) (sigCase6 ign fil) (sigCase7 ign fil) (sigCase8 ign fil)
    (sigCase9 ign fil) (sigCase10 ign fil) (sigCase11 ign fil) (sigCase12 ign fil)
    (sigCase13 ign fil) (sigCase14 ign fil) (sigCase15 ign fil) (sigCase16 ign fil)
    (sigCase17 ign fil) prior latest p

theorem deepArrayCompare_sig (ign fil : Option (List String)) (prior latest : JVal)
    (p : String) : SigArr ign fil prior latest p :=
  deepArrayCompare.induct ign fil (SigCV ign fil) (SigObj ign fil) (SigIdx ign fil)
    (SigKeys ign fil) (SigArr ign fil) (SigElems ign fil)
    (sigCase1 ign fil) (sigCase2 ign fil) (sigCase3 ign fil) (sigCase4 ign fil)
    (sigCase5 ign fil) (sigCase6 ign fil) (sigCase7 ign fil) (sigCase8 ign fil)
    (sigCase9 ign fil) (sigCase10 ign fil) (sigCase11 ign fil) (sigCase12 ign fil)
    (sigCase13 ign fil) (sigCase14 ign fil) (sigCase15 ign fil) (sigCase16 ign fil)
    (sigCase17 ign fil) prior latest p

/-- C8: with any `keysToFilter` configuration, the comparison produces a
changelog with exactly the same sequence of `(path, note)` pairs as the run
with `keysToFilter` unset (or the same error), for every input pair,
ignore-list and root label: redaction is applied only inside `getChangelog`
when output entries are built, and never influences hashing, classification
or traversal.  The second conjunct records that the redactor is exactly
what the entry builder applies to the reported values. -/
theorem C8_redaction_never_affects_detection :
    (∀ (ign fil : Option (List String)) (prior latest : JVal) (root : String),
      resSig (deepCompare ign fil prior latest root)
        = resSig (deepCompare ign none prior latest root))
    ∧ (∀ (a b : JVal) (p : String) (fil : Option (List String)),
        (getChangelog a b p .Updated fil).oldVal = some (filterObjectKeys a fil)
        ∧ (getChangelog a b p .Updated fil).newVal = some (filterObjectKeys b fil)) := by
  constructor
  · intro ign fil prior latest root
    simp only [deepCompare]
    by_cases ht : (!prior.truthy || !latest.truthy) = true
    · simp only [ht, reduceIte]
    · simp only [Bool.not_eq_true] at ht
      simp only [ht, Bool.false_eq_true, reduceIte]
      cases hh : hashCompare prior latest with
      | error err => rfl
      | ok b =>
        cases b with
        | true => rfl
        | false =>
          by_cases ha : areBothArrays prior latest = true
          · simp only [ha, reduceIte]
            exact deepArrayCompare_sig ign fil prior latest root none
          · simp only [Bool.not_eq_true] at ha
            simp only [ha, Bool.false_eq_true, reduceIte]
            by_cases ho : areBothObjects prior latest = true
            · simp only [ho, reduceIte]
              exact deepObjectCompare_sig ign fil prior latest root none
            · simp only [Bool.not_eq_true] at ho
              simp only [ho, Bool.false_eq_true, reduceIte]
              show Except.ok [entrySig (getChangelog prior latest root .Updated fil)]
                = Except.ok [entrySig (getChangelog prior latest root .Updated none)]
              rw [entrySig_getChangelog, entrySig_getChangelog]
  · intro a b p fil
    exact ⟨rfl, rfl⟩

/-! ## Claim C7: ignore-list keys never yield value-change entries

Paths are strings, so "an entry at key `k`" is read as the spec reads it:
the entry's path ends in `"." ++ k`.  To make that reading sound the keys
involved must not themselves contain the path punctuation `.`/`[`/`]`;
`plainKey`/`plainVal` capture that side condition. -/

/-- A key free of the path punctuation characters. -/
def plainKey (k : String) : Bool :=
  k.data.all (fun c => !(c == '.' || c == '[' || c == ']'))

mutual

/-- All mapping keys occurring anywhere in the value are plain. -/
def plainVal : JVal → Bool
  | vArr xs => plainValList xs
  | vObj fs => plainValEntries fs
  | _ => true

/-- `plainVal` over array elements. -/
def plainValList : List JVal → Bool
  | [] => true
  | x :: rest => plainVal x && plainValList rest

/-- `plainVal` over object fields (keys and values). -/
def plainValEntries : List (String × JVal) → Bool
  | [] => true
  | kv :: rest => plainKey kv.1 && plainVal kv.2 && plainValEntries rest

end

/-- `p` ends with the string `sfx`. -/
def endsIn (sfx p : String) : Prop := sfx.data <:+ p.data

instance (sfx p : String) : Decidable (endsIn sfx p) := by
  unfold endsIn
  infer_instance

theorem plainKey_chars (k : String) (h : plainKey k = true) :
    ∀ c ∈ k.data, c ≠ '.' ∧ c ≠ '[' ∧ c ≠ ']' := by
  intro c hc
  have := List.all_eq_true.mp h c hc
  simp only [Bool.not_eq_true', Bool.or_eq_false_iff, beq_eq_false_iff_ne] at this
  exact ⟨this.1.1, this.1.2, this.2⟩

theorem suffix_of_suffix_length_le {α : Type} {s1 s2 b : List α}
    (h1 : s1 <:+ b) (h2 : s2 <:+ b) (hl : s1.length ≤ s2.length) : s1 <:+ s2 := by
  rw [← List.reverse_prefix] at h1 h2 ⊢
  exact List.prefix_of_prefix_length_le h1 h2 (by simpa using hl)

theorem suffix_getLast? {α : Type} {a b : List α} (h : a <:+ b) (ha : a ≠ []) :
    b.getLast? = a.getLast? := by
  obtain ⟨t, rfl⟩ := h
  rw [List.getLast?_append]
  cases hx : a.getLast? with
  | none => exact absurd (List.getLast?_eq_none_iff.mp hx) ha
  | some x => rfl

theorem endsIn_dot_false_bracket (p s k : String)
    (hk : plainKey k = true) (hne : k ≠ "") :
    ¬ endsIn ("." ++ k) (p ++ "[" ++ s ++ "]") := by
  intro h
  unfold endsIn at h
  have hd1 : ("." ++ k).data = '.' :: k.data := by
    rw [String.data_append]
    rfl
  have hd2 : (p ++ "[" ++ s ++ "]").data = (p ++ "[" ++ s).data ++ [']'] := by
    rw [String.data_append]
  rw [hd1, hd2] at h
  have hkne : k.data ≠ [] := fun hx => hne (String.ext hx)
  have hne2 : ('.' :: k.data) ≠ [] := by simp
  have hlast := suffix_getLast? h hne2
  have hcons : ('.' :: k.data).getLast? = k.data.getLast? := by
    cases hx : k.data with
    | nil => exact absurd hx hkne
    | cons c cs => simp [List.getLast?_cons_cons, hx]
  rw [hcons, List.getLast?_append] at hlast
  have hlast2 : (some ']' : Option Char) = k.data.getLast? := hlast
  cases hx : k.data.getLast? with
  | none => exact hkne (List.getLast?_eq_none_iff.mp hx)
  | some c =>
    rw [hx] at hlast2
    have hmem : c ∈ k.data := List.mem_of_mem_getLast? hx
    have := (plainKey_chars k hk c hmem).2.2
    exact this (Option.some.inj hlast2).symm

theorem endsIn_dot_false_dot (p key k : String)
    (hkey : plainKey key = true) (hk : plainKey k = true)
    (hne : key ≠ k) :
    ¬ endsIn ("." ++ k) (p ++ "." ++ key) := by
  intro h
  unfold endsIn at h
  have hd1 : ("." ++ k).data = '.' :: k.data := by
    rw [String.data_append]
    rfl
  have hd2 : (p ++ "." ++ key).data = (p.data ++ ['.']) ++ key.data := by
    rw [String.data_append, String.data_append]
  rw [hd1, hd2] at h
  by_cases hlen : ('.' :: k.data).length ≤ key.data.length
  · have hsk : key.data <:+ (p.data ++ ['.']) ++ key.data := List.suffix_append _ _
    have h2 : ('.' :: k.data) <:+ key.data := suffix_of_suffix_length_le h hsk hlen
    have hmem : '.' ∈ key.data := h2.subset (List.mem_cons_self _ _)
    exact (plainKey_chars key hkey '.' hmem).1 rfl
  · have hsk : ('.' :: key.data) <:+ (p.data ++ ['.']) ++ key.data := by
      rw [List.append_assoc]
      exact List.suffix_append _ _
    have h2 : ('.' :: key.data) <:+ ('.' :: k.data) := by
      refine suffix_of_suffix_length_le hsk h ?_
      simp only [List.length_cons, Nat.not_le] at hlen ⊢
      omega
    rcases List.suffix_cons_iff.mp h2 with heq | hsfx
    · exact hne (String.ext (List.cons.inj heq).2)
    · have hmem : '.' ∈ k.data := hsfx.subset (List.mem_cons_self _ _)
      exact (plainKey_chars k hk '.' hmem).1 rfl

theorem digitChar_plain (m : Nat) (h : m < 10) :
    (!(Nat.digitChar m == '.' || Nat.digitChar m == '[' || Nat.digitChar m == ']')) = true := by
  interval_cases m <;> decide

theorem toDigitsCore_plain (fuel : Nat) :
    ∀ (n : Nat) (ds : List Char),
    ds.all (fun c => !(c == '.' || c == '[' || c == ']')) = true →
    (Nat.toDigitsCore 10 fuel n ds).all (fun c => !(c == '.' || c == '[' || c == ']')) = true := by
  induction fuel with
  | zero => intro n ds h; exact h
  | succ f ih =>
    intro n ds h
    simp only [Nat.toDigitsCore]
    have hd := digitChar_plain (n % 10) (Nat.mod_lt n (by decide))
    split
    · rw [List.all_cons, hd, h]
      rfl
    · apply ih
      rw [List.all_cons, hd, h]
      rfl

/-- The decimal index keys the comparer builds with `toString` contain only
digit characters, hence no path punctuation. -/
theorem plainKey_toString_nat (i : Nat) : plainKey (toString i) = true := by
  have h : plainKey (toString i)
      = (Nat.toDigitsCore 10 (i + 1) i []).all (fun c => !(c == '.' || c == '[' || c == ']')) := rfl
  rw [h]
  exact toDigitsCore_plain (i + 1) i [] rfl

theorem ignoresKey_of_mem (l : List String) (k : String) (h : k ∈ l) :
    ignoresKey (some l) k = true := by
  simp [ignoresKey, h]

theorem plainValList_mem {xs : List JVal} (h : plainValList xs = true) :
    ∀ x ∈ xs, plainVal x = true := by
  induction xs with
  | nil => intro x hx; exact absurd hx (List.not_mem_nil x)
  | cons y rest ih =>
    have h2 : (plainVal y && plainValList rest) = true := h
    rw [Bool.and_eq_true] at h2
    intro x hx
    rcases List.mem_cons.mp hx with rfl | hx2
    · exact h2.1
    · exact ih h2.2 x hx2

theorem plainValEntries_mem {fs : List (String × JVal)} (h : plainValEntries fs = true) :
    ∀ kv ∈ fs, plainKey kv.1 = true ∧ plainVal kv.2 = true := by
  induction fs with
  | nil => intro kv hkv; exact absurd hkv (List.not_mem_nil kv)
  | cons kv0 rest ih =>
    have h2 : (plainKey kv0.1 && plainVal kv0.2 && plainValEntries rest) = true := h
    rw [Bool.and_eq_true, Bool.and_eq_true] at h2
    intro kv hkv
    rcases List.mem_cons.mp hkv with rfl | hkv2
    · exact ⟨h2.1.1, h2.1.2⟩
    · exact ih h2.2 kv hkv2

theorem plainVal_indexLookup (k : String) (xs : List JVal) :
    ∀ i, plainValList xs = true → plainVal (indexLookup k i xs) = true := by
  induction xs with
  | nil => intro i _; rfl
  | cons x rest ih =>
    intro i h
    have h2 : (plainVal x && plainValList rest) = true := h
    rw [Bool.and_eq_true] at h2
    rw [indexLookup]
    split
    · exact h2.1
    · exact ih (i + 1) h2.2

/-- Property reads out of a plain-keyed value are themselves plain-keyed. -/
theorem plainVal_objGet (o : JVal) (k : String) (h : plainVal o = true) :
    plainVal (objGet o k) = true := by
  cases o with
  | vObj fs =>
    simp only [objGet]
    split
    · next kv heq =>
      have hmem := List.mem_of_find?_eq_some heq
      have h2 : plainValEntries fs = true := h
      exact (plainValEntries_mem h2 kv hmem).2
    · rfl
  | vArr xs =>
    have h2 : plainValList xs = true := h
    simp only [objGet]
    exact plainVal_indexLookup k xs 0 h2
  | vUndefined => rfl
  | vNull => rfl
  | vBool b => rfl
  | vNum n => rfl
  | vStr s => rfl
  | vDate t => rfl
  | vFun f => rfl

theorem plainVal_jsIndex (ys : List JVal) :
    ∀ i, plainValList ys = true → plainVal (jsIndex ys i) = true := by
  induction ys with
  | nil => intro i _; rfl
  | cons y rest ih =>
    intro i h
    have h2 : (plainVal y && plainValList rest) = true := h
    rw [Bool.and_eq_true] at h2
    cases i with
    | zero => exact h2.1
    | succ j => exact ih j h2.2

theorem addedKeyEntries_note (fil : Option (List String)) (prior latest : JVal)
    (path : String) (e : Entry) (he : e ∈ addedKeyEntries fil prior latest path) :
    e.note = "Added" := by
  unfold addedKeyEntries at he
  obtain ⟨kv, _, rfl⟩ := List.mem_map.mp he
  rw [getChangelog_note]

theorem addedElemEntries_note (fil : Option (List String)) (xs ys : List JVal)
    (path : String) (e : Entry) (he : e ∈ addedElemEntries fil xs ys path) :
    e.note = "Added" := by
  unfold addedElemEntries at he
  obtain ⟨q, _, rfl⟩ := List.mem_map.mp he
  rw [getChangelog_note]

/-- `compareValues` under an ignore list containing `k` never yields a
non-Added entry whose path ends in `.k` (assuming the keys in play are
plain and the call path itself does not end in `.k`). -/
def SafeCV (k : String) (l : List String) (fil : Option (List String))
    (v w : JVal) (p : String) : Prop :=
  k ∈ l → plainKey k = true → k ≠ "" →
  plainVal v = true → plainVal w = true → ¬ endsIn ("." ++ k) p →
  ∀ res, compareValues (some l) fil v w p = .ok res →
    ∀ e ∈ res, e.note ≠ "Added" → ¬ endsIn ("." ++ k) e.path

/-- The ignored-key safety property for `deepObjectCompare`. -/
def SafeObj (k : String) (l : List String) (fil : Option (List String))
    (prior latest : JVal) (p : String) : Prop :=
  k ∈ l → plainKey k = true → k ≠ "" →
  plainVal prior = true → plainVal latest = true →
  ∀ res, deepObjectCompare (some l) fil prior latest p = .ok res →
    ∀ e ∈ res, e.note ≠ "Added" → ¬ endsIn ("." ++ k) e.path

/-- The ignored-key safety property for `compareIdxKeysGo`. -/
def SafeIdx (k : String) (l : List String) (fil : Option (List String))
    (latest : JVal) (p : String) (i : Nat) (xs : List JVal) : Prop :=
  k ∈ l → plainKey k = true → k ≠ "" →
  plainValList xs = true → plainVal latest = true →
  ∀ res, compareIdxKeysGo (some l) fil latest p i xs = .ok res →
    ∀ e ∈ res, e.note ≠ "Added" → ¬ endsIn ("." ++ k) e.path

/-- The ignored-key safety property for `compareKeysGo`. -/
def SafeKeys (k : String) (l : List String) (fil : Option (List String))
    (latest : JVal) (p : String) (fs : List (String × JVal)) : Prop :=
  k ∈ l → plainKey k = true → k ≠ "" →
  plainValEntries fs = true → plainVal latest = true →
  ∀ res, compareKeysGo (some l) fil latest p fs = .ok res →
    ∀ e ∈ res, e.note ≠ "Added" → ¬ endsIn ("." ++ k) e.path

/-- The ignored-key safety property for `deepArrayCompare`. -/
def SafeArr (k : String) (l : List String) (fil : Option (List String))
    (prior latest : JVal) (p : String) : Prop :=
  k ∈ l → plainKey k = true → k ≠ "" →
  plainVal prior = true → plainVal latest = true →
  ∀ res, deepArrayCompare (some l) fil prior latest p = .ok res →
    ∀ e ∈ res, e.note ≠ "Added" → ¬ endsIn ("." ++ k) e.path

/-- The ignored-key safety property for `compareElemsGo`. -/
def SafeElems (k : String) (l : List String) (fil : Option (List String))
    (ys : List JVal) (p : String) (i : Nat) (xs : List JVal) : Prop :=
  k ∈ l → plainKey k = true → k ≠ "" →
  plainValList xs = true → plainValList ys = true →
  ∀ res, compareElemsGo (some l) fil ys p i xs = .ok res →
    ∀ e ∈ res, e.note ≠ "Added" → ¬ endsIn ("." ++ k) e.path

theorem safeCase1 (k : String) (l : List String) (fil : Option (List String)) :
    ∀ (v1 v2 : JVal) (p : String), (v1.isFun || v2.isFun) = true →
      SafeCV k l fil v1 v2 p := by
  intro v1 v2 p hfun hkl hpk hkz hv hw hp res hres e he hnote
  rw [compareValues] at hres
  simp only [hfun, reduceIte] at hres
  exact Except.noConfusion hres

theorem safeCase2 (k : String) (l : List String) (fil : Option (List String)) :
    ∀ (v1 v2 : JVal) (p : String), ¬(v1.isFun || v2.isFun) = true →
      v2.isNullish = true → SafeCV k l fil v1 v2 p := by
  intro v1 v2 p hfun hnull hkl hpk hkz hv hw hp res hres e he hnote
  simp only [Bool.not_eq_true] at hfun
  rw [compareValues] at hres
  simp only [hfun, hnull, Bool.false_eq_true, reduceIte] at hres
  obtain rfl := (Except.ok.inj hres).symm
  obtain rfl := List.mem_singleton.mp he
  rw [getChangelog_path]
  exact hp

theorem safeCase3 (k : String) (l : List String) (fil : Option (List String)) :
    ∀ (v1 v2 : JVal) (p : String), ¬(v1.isFun || v2.isFun) = true →
      ¬v2.isNullish = true →
      (areBothDates v1 v2 && v1.getTime != v2.getTime) = true →
      SafeCV k l fil v1 v2 p := by
  intro v1 v2 p hfun hnull hdate hkl hpk hkz hv hw hp res hres e he hnote
  simp only [Bool.not_eq_true] at hfun hnull
  rw [compareValues] at hres
  simp only [hfun, hnull, hdate, Bool.false_eq_true, reduceIte] at hres
  obtain rfl := (Except.ok.inj hres).symm
  obtain rfl := List.mem_singleton.mp he
  rw [getChangelog_path]
  exact hp

theorem safeCase4 (k : String) (l : List String) (fil : Option (List String)) :
    ∀ (v1 v2 : JVal) (p : String), ¬(v1.isFun || v2.isFun) = true →
      ¬v2.isNullish = true →
      ¬(areBothDates v1 v2 && v1.getTime != v2.getTime) = true →
      areBothArrays v1 v2 = true →
      SafeArr k l fil v1 v2 p → SafeCV k l fil v1 v2 p := by
  intro v1 v2 p hfun hnull hdate harr ih hkl hpk hkz hv hw hp res hres e he hnote
  simp only [Bool.not_eq_true] at hfun hnull hdate
  rw [compareValues] at hres
  simp only [hfun, hnull, hdate, harr, Bool.false_eq_true, reduceIte] at hres
  exact ih hkl hpk hkz hv hw res hres e he hnote

theorem safeCase5 (k : String) (l : List String) (fil : Option (List String)) :
    ∀ (v1 v2 : JVal) (p : String), ¬(v1.isFun || v2.isFun) = true →
      ¬v2.isNullish = true →
      ¬(areBothDates v1 v2 && v1.getTime != v2.getTime) = true →
      ¬areBothArrays v1 v2 = true →
      areBothObjects v1 v2 = true →
      SafeObj k l fil v1 v2 p → SafeCV k l fil v1 v2 p := by
  intro v1 v2 p hfun hnull hdate harr hobj ih hkl hpk hkz hv hw hp res hres e he hnote
  simp only [Bool.not_eq_true] at hfun hnull hdate harr
  rw [compareValues] at hres
  simp only [hfun, hnull, hdate, harr, hobj, Bool.false_eq_true, reduceIte] at hres
  exact ih hkl hpk hkz hv hw res hres e he hnote

theorem safeCase6 (k : String) (l : List String) (fil : Option (List String)) :
    ∀ (v1 v2 : JVal) (p : String), ¬(v1.isFun || v2.isFun) = true →
      ¬v2.isNullish = true →
      ¬(areBothDates v1 v2 && v1.getTime != v2.getTime) = true →
      ¬areBothArrays v1 v2 = true → ¬areBothObjects v1 v2 = true →
      (!jsStrictEq v1 v2) = true → SafeCV k l fil v1 v2 p := by
  intro v1 v2 p hfun hnull hdate harr hobj hne hkl hpk hkz hv hw hp res hres e he hnote
  simp only [Bool.not_eq_true] at hfun hnull hdate harr hobj
  rw [compareValues] at hres
  simp only [hfun, hnull, hdate, harr, hobj, hne, Bool.false_eq_true, reduceIte] at hres
  obtain rfl := (Except.ok.inj hres).symm
  obtain rfl := List.mem_singleton.mp he
  rw [getChangelog_path]
  exact hp

theorem safeCase7 (k : String) (l : List String) (fil : Option (List String)) :
    ∀ (v1 v2 : JVal) (p : String), ¬(v1.isFun || v2.isFun) = true →
      ¬v2.isNullish = true →
      ¬(areBothDates v1 v2 && v1.getTime != v2.getTime) = true →
      ¬areBothArrays v1 v2 = true → ¬areBothObjects v1 v2 = true →
      ¬(!jsStrictEq v1 v2) = true → SafeCV k l fil v1 v2 p := by
  intro v1 v2 p hfun hnull hdate harr hobj hne hkl hpk hkz hv hw hp res hres e he hnote
  simp only [Bool.not_eq_true] at hfun hnull hdate harr hobj hne
  rw [compareValues] at hres
  simp only [hfun, hnull, hdate, harr, hobj, hne, Bool.false_eq_true, reduceIte] at hres
  obtain rfl := (Except.ok.inj hres).symm
  exact absurd he (List.not_mem_nil e)

theorem safeCase8 (k : String) (l : List String) (fil : Option (List String)) :
    ∀ (prior latest : JVal) (p : String),
      (match prior with
       | vObj fs => SafeKeys k l fil latest p fs
       | vArr xs => SafeIdx k l fil latest p 0 xs
       | _ => True) →
      SafeObj k l fil prior latest p := by
  intro prior latest p ihm hkl hpk hkz hv hw res hres e he hnote
  rw [deepObjectCompare] at hres
  cases hh : hashCompare prior latest with
  | error err =>
    rw [hh] at hres
    exact Except.noConfusion hres
  | ok b =>
    rw [hh] at hres
    cases b with
    | true =>
      have hres2 : (Except.ok [] : Except CmpError (List Entry)) = .ok res := hres
      obtain rfl := (Except.ok.inj hres2).symm
      exact absurd he (List.not_mem_nil e)
    | false =>
      cases prior
      case vObj fs =>
        have ihk : SafeKeys k l fil latest p fs := ihm
        have hfs : plainValEntries fs = true := hv
        have hres2 : Except.bind (compareKeysGo (some l) fil latest p fs)
            (fun fl => (Except.ok ((jsEntries latest).foldl (fun diffs kv =>
              if jsHasOwn (vObj fs) kv.1 then diffs
              else diffs ++ [getChangelog kv.2 vUndefined (p ++ "." ++ kv.1) .Added fil])
              fl) : Except CmpError (List Entry))) = .ok res := hres
        cases hk2 : compareKeysGo (some l) fil latest p fs with
        | error err =>
          rw [hk2] at hres2
          exact Except.noConfusion hres2
        | ok fl =>
          rw [hk2] at hres2
          have hr := sweep_keys_eq fil (vObj fs) latest p fl res hres2
          subst hr
          rcases List.mem_append.mp he with h1 | h1
          · exact ihk hkl hpk hkz hfs hw fl hk2 e h1 hnote
          · exact absurd (addedKeyEntries_note fil (vObj fs) latest p e h1) hnote
      case vArr xs =>
        have ihi : SafeIdx k l fil latest p 0 xs := ihm
        have hxs : plainValList xs = true := hv
        have hres2 : Except.bind (compareIdxKeysGo (some l) fil latest p 0 xs)
            (fun fl => (Except.ok ((jsEntries latest).foldl (fun diffs kv =>
              if jsHasOwn (vArr xs) kv.1 then diffs
              else diffs ++ [getChangelog kv.2 vUndefined (p ++ "." ++ kv.1) .Added fil])
              fl) : Except CmpError (List Entry))) = .ok res := hres
        cases hk2 : compareIdxKeysGo (some l) fil latest p 0 xs with
        | error err =>
          rw [hk2] at hres2
          exact Except.noConfusion hres2
        | ok fl =>
          rw [hk2] at hres2
          have hr := sweep_keys_eq fil (vArr xs) latest p fl res hres2
          subst hr
          rcases List.mem_append.mp he with h1 | h1
          · exact ihi hkl hpk hkz hxs hw fl hk2 e h1 hnote
          · exact absurd (addedKeyEntries_note fil (vArr xs) latest p e h1) hnote
      all_goals {
        have hr := sweep_keys_eq fil _ latest p [] res hres
        subst hr
        rcases List.mem_append.mp he with h1 | h1
        · exact absurd h1 (List.not_mem_nil e)
        · exact absurd (addedKeyEntries_note fil _ latest p e h1) hnote }

theorem safeCase9 (k : String) (l : List String) (fil : Option (List String)) :
    ∀ (latest : JVal) (p : String) (i : Nat), SafeIdx k l fil latest p i [] := by
  intro latest p i hkl hpk hkz hxs hw res hres e he hnote
  rw [compareIdxKeysGo] at hres
  obtain rfl := (Except.ok.inj hres).symm
  exact absurd he (List.not_mem_nil e)

theorem safeCase10 (k : String) (l : List String) (fil : Option (List String)) :
    ∀ (latest : JVal) (p : String) (i : Nat) (x : JVal) (rest : List JVal),
      ignoresKey (some l) (toString i) = true →
      SafeIdx k l fil latest p (i + 1) rest → SafeIdx k l fil latest p i (x :: rest) := by
  intro latest p i x rest hig ihrest hkl hpk hkz hxs hw res hres e he hnote
  have h2 : (plainVal x && plainValList rest) = true := hxs
  rw [Bool.and_eq_true] at h2
  rw [compareIdxKeysGo] at hres
  simp only [hig, reduceIte] at hres
  cases hr : compareIdxKeysGo (some l) fil latest p (i + 1) rest with
  | error err =>
    rw [hr] at hres
    exact Except.noConfusion hres
  | ok ds =>
    rw [hr] at hres
    have hres2 : (Except.ok ([] ++ ds) : Except CmpError (List Entry)) = .ok res := hres
    have hds : res = [] ++ ds := (Except.ok.inj hres2).symm
    rw [List.nil_append] at hds
    exact ihrest hkl hpk hkz h2.2 hw ds hr e (hds ▸ he) hnote

theorem safeCase11 (k : String) (l : List String) (fil : Option (List String)) :
    ∀ (latest : JVal) (p : String) (i : Nat) (x : JVal) (rest : List JVal),
      ¬ignoresKey (some l) (toString i) = true →
      SafeIdx k l fil latest p (i + 1) rest →
      SafeCV k l fil x (objGet latest (toString i)) (p ++ "." ++ toString i) →
      SafeIdx k l fil latest p i (x :: rest) := by
  intro latest p i x rest hig ihrest ihv hkl hpk hkz hxs hw res hres e he hnote
  have h2 : (plainVal x && plainValList rest) = true := hxs
  rw [Bool.and_eq_true] at h2
  have hik : toString i ≠ k := by
    intro heq
    rw [heq, ignoresKey_of_mem l k hkl] at hig
    exact hig rfl
  simp only [Bool.not_eq_true] at hig
  rw [compareIdxKeysGo] at hres
  simp only [hig, Bool.false_eq_true, reduceIte] at hres
  cases hd : compareValues (some l) fil x (objGet latest (toString i))
      (p ++ "." ++ toString i) with
  | error err =>
    rw [hd] at hres
    exact Except.noConfusion hres
  | ok d =>
    rw [hd] at hres
    cases hr : compareIdxKeysGo (some l) fil latest p (i + 1) rest with
    | error err =>
      rw [hr] at hres
      exact Except.noConfusion hres
    | ok ds =>
      rw [hr] at hres
      have hres2 : (Except.ok (d ++ ds) : Except CmpError (List Entry)) = .ok res := hres
      obtain rfl := (Except.ok.inj hres2).symm
      rcases List.mem_append.mp he with h1 | h1
      · exact ihv hkl hpk hkz h2.1 (plainVal_objGet latest (toString i) hw)
          (endsIn_dot_false_dot p (toString i) k (plainKey_toString_nat i) hpk hik)
          d hd e h1 hnote
      · exact ihrest hkl hpk hkz h2.2 hw ds hr e h1 hnote

theorem safeCase12 (k : String) (l : List String) (fil : Option (List String)) :
    ∀ (latest : JVal) (p : String), SafeKeys k l fil latest p [] := by
  intro latest p hkl hpk hkz hfs hw res hres e he hnote
  rw [compareKeysGo] at hres
  obtain rfl := (Except.ok.inj hres).symm
  exact absurd he (List.not_mem_nil e)

theorem safeCase13 (k : String) (l : List String) (fil : Option (List String)) :
    ∀ (latest : JVal) (p key : String) (v : JVal) (rest : List (String × JVal)),
      ignoresKey (some l) key = true →
      SafeKeys k l fil latest p rest → SafeKeys k l fil latest p ((key, v) :: rest) := by
  intro latest p key v rest hig ihrest hkl hpk hkz hfs hw res hres e he hnote
  have h2 : (plainKey key && plainVal v && plainValEntries rest) = true := hfs
  rw [Bool.and_eq_true, Bool.and_eq_true] at h2
  rw [compareKeysGo] at hres
  simp only [hig, reduceIte] at hres
  cases hr : compareKeysGo (some l) fil latest p rest with
  | error err =>
    rw [hr] at hres
    exact Except.noConfusion hres
  | ok ds =>
    rw [hr] at hres
    have hres2 : (Except.ok ([] ++ ds) : Except CmpError (List Entry)) = .ok res := hres
    have hds : res = [] ++ ds := (Except.ok.inj hres2).symm
    rw [List.nil_append] at hds
    exact ihrest hkl hpk hkz h2.2 hw ds hr e (hds ▸ he) hnote

theorem safeCase14 (k : String) (l : List String) (fil : Option (List String)) :
    ∀ (latest : JVal) (p key : String) (v : JVal) (rest : List (String × JVal)),
      ¬ignoresKey (some l) key = true →
      SafeKeys k l fil latest p rest →
      SafeCV k l fil v (objGet latest key) (p ++ "." ++ key) →
      SafeKeys k l fil latest p ((key, v) :: rest) := by
  intro latest p key v rest hig ihrest ihv hkl hpk hkz hfs hw res hres e he hnote
  have h2 : (plainKey key && plainVal v && plainValEntries rest) = true := hfs
  rw [Bool.and_eq_true, Bool.and_eq_true] at h2
  have hik : key ≠ k := by
    intro heq
    rw [heq, ignoresKey_of_mem l k hkl] at hig
    exact hig rfl
  simp only [Bool.not_eq_true] at hig
  rw [compareKeysGo] at hres
  simp only [hig, Bool.false_eq_true, reduceIte] at hres
  cases hd : compareValues (some l) fil v (objGet latest key) (p ++ "." ++ key) with
  | error err =>
    rw [hd] at hres
    exact Except.noConfusion hres
  | ok d =>
    rw [hd] at hres
    cases hr : compareKeysGo (some l) fil latest p rest with
    | error err =>
      rw [hr] at hres
      exact Except.noConfusion hres
    | ok ds =>
      rw [hr] at hres
      have hres2 : (Except.ok (d ++ ds) : Except CmpError (List Entry)) = .ok res := hres
      obtain rfl := (Except.ok.inj hres2).symm
      rcases List.mem_append.mp he with h1 | h1
      · exact ihv hkl hpk hkz h2.1.2 (plainVal_objGet latest key hw)
          (endsIn_dot_false_dot p key k h2.1.1 hpk hik) d hd e h1 hnote
      · exact ihrest hkl hpk hkz h2.2 hw ds hr e h1 hnote

theorem safeCase15 (k : String) (l : List String) (fil : Option (List String)) :
    ∀ (prior latest : JVal) (p : String),
      (match prior, latest with
       | vArr xs, vArr ys => SafeElems k l fil ys p 0 xs
       | _, _ => True) →
      SafeArr k l fil prior latest p := by
  intro prior latest p ihm hkl hpk hkz hv hw res hres e he hnote
  rw [deepArrayCompare.eq_def] at hres
  cases hh : hashCompare prior latest with
  | error err =>
    rw [hh] at hres
    exact Except.noConfusion hres
  | ok b =>
    rw [hh] at hres
    cases b with
    | true =>
      have hres2 : (Except.ok [] : Except CmpError (List Entry)) = .ok res := hres
      obtain rfl := (Except.ok.inj hres2).symm
      exact absurd he (List.not_mem_nil e)
    | false =>
      cases prior
      case vArr xs =>
        cases latest
        case vArr ys =>
          have ihe : SafeElems k l fil ys p 0 xs := ihm
          have hxs : plainValList xs = true := hv
          have hys : plainValList ys = true := hw
          have hres2 : Except.bind (compareElemsGo (some l) fil ys p 0 xs)
              (fun fl => (Except.ok (((ys.drop xs.length).enum).foldl (fun diffs q =>
                diffs ++ [getChangelog q.2 vUndefined
                  (p ++ "[" ++ toString (q.1 + xs.length) ++ "]") .Added fil])
                fl) : Except CmpError (List Entry))) = .ok res := hres
          cases hk2 : compareElemsGo (some l) fil ys p 0 xs with
          | error err =>
            rw [hk2] at hres2
            exact Except.noConfusion hres2
          | ok fl =>
            rw [hk2] at hres2
            have hr := sweep_elems_eq fil xs ys p fl res hres2
            subst hr
            rcases List.mem_append.mp he with h1 | h1
            · exact ihe hkl hpk hkz hxs hys fl hk2 e h1 hnote
            · exact absurd (addedElemEntries_note fil xs ys p e h1) hnote
        all_goals {
          have hres2 : (Except.ok [] : Except CmpError (List Entry)) = .ok res := hres
          obtain rfl := (Except.ok.inj hres2).symm
          exact absurd he (List.not_mem_nil e) }
      all_goals {
        have hres2 : (Except.ok [] : Except CmpError (List Entry)) = .ok res := hres
        obtain rfl := (Except.ok.inj hres2).symm
        exact absurd he (List.not_mem_nil e) }

theorem safeCase16 (k : String) (l : List String) (fil : Option (List String)) :
    ∀ (ys : List JVal) (p : String) (i : Nat), SafeElems k l fil ys p i [] := by
  intro ys p i hkl hpk hkz hxs hys res hres e he hnote
  rw [compareElemsGo] at hres
  obtain rfl := (Except.ok.inj hres).symm
  exact absurd he (List.not_mem_nil e)

theorem safeCase17 (k : String) (l : List String) (fil : Option (List String)) :
    ∀ (ys : List JVal) (p : String) (i : Nat) (x : JVal) (rest : List JVal),
      SafeCV k l fil x (jsIndex ys i) (p ++ "[" ++ toString i ++ "]") →
      SafeElems k l fil ys p (i + 1) rest → SafeElems k l fil ys p i (x :: rest) := by
  intro ys p i x rest ihv ihrest hkl hpk hkz hxs hys res hres e he hnote
  have h2 : (plainVal x && plainValList rest) = true := hxs
  rw [Bool.and_eq_true] at h2
  rw [compareElemsGo] at hres
  cases hd : compareValues (some l) fil x (jsIndex ys i)
      (p ++ "[" ++ toString i ++ "]") with
  | error err =>
    rw [hd] at hres
    exact Except.noConfusion hres
  | ok d =>
    rw [hd] at hres
    cases hr : compareElemsGo (some l) fil ys p (i + 1) rest with
    | error err =>
      rw [hr] at hres
      exact Except.noConfusion hres
    | ok ds =>
      rw [hr] at hres
      have hres2 : (Except.ok (d ++ ds) : Except CmpError (List Entry)) = .ok res := hres
      obtain rfl := (Except.ok.inj hres2).symm
      rcases List.mem_append.mp he with h1 | h1
      · exact ihv hkl hpk hkz h2.1 (plainVal_jsIndex ys i hys)
          (endsIn_dot_false_bracket p (toString i) k hpk hkz) d hd e h1 hnote
      · exact ihrest hkl hpk hkz h2.2 hys ds hr e h1 hnote

/-- Ignored-key safety for `deepObjectCompare`, by functional induction. -/
theorem deepObjectCompare_ignored (k : String) (l : List String)
    (fil : Option (List String)) (prior latest : JVal) (p : String) :
    SafeObj k l fil prior latest p :=
  deepObjectCompare.induct (some l) fil (SafeCV k l fil) (SafeObj k l fil)
    (SafeIdx k l fil) (SafeKeys k l fil) (SafeArr k l fil) (SafeElems k l fil)
    (safeCase1 k l fil) (safeCase2 k l fil) (safeCase3 k l fil) (safeCase4 k l fil)
    (safeCase5 k l fil) (safeCase6 k l fil) (safeCase7 k l fil) (safeCase8 k l fil)
    (safeCase9 k l fil) (safeCase10 k l fil) (safeCase11 k l fil) (safeCase12 k l fil)
    (safeCase13 k l fil) (safeCase14 k l fil) (safeCase15 k l fil) (safeCase16 k l fil)
    (safeCase17 k l fil) prior latest p

/-- Ignored-key safety for `deepArrayCompare`, by functional induction. -/
theorem deepArrayCompare_ignored (k : String) (l : List String)
    (fil : Option (List String)) (prior latest : JVal) (p : String) :
    SafeArr k l fil prior latest p :=
  deepArrayCompare.induct (some l) fil (SafeCV k l fil) (SafeObj k l fil)
    (SafeIdx k l fil) (SafeKeys k l fil) (SafeArr k l fil) (SafeElems k l fil)
    (safeCase1 k l fil) (safeCase2 k l fil) (safeCase3 k l fil) (safeCase4 k l fil)
    (safeCase5 k l fil) (safeCase6 k l fil) (safeCase7 k l fil) (safeCase8 k l fil)
    (safeCase9 k l fil) (safeCase10 k l fil) (safeCase11 k l fil) (safeCase12 k l fil)
    (safeCase13 k l fil) (safeCase14 k l fil) (safeCase15 k l fil) (safeCase16 k l fil)
    (safeCase17 k l fil) prior latest p

/-- C7 counterexample: the claim states the ignore-list is *never* applied
to sequence indices.  But a sequence compared against a mapping is routed
through `deepObjectCompare` (`Helper.areBothObjects` accepts arrays), whose
per-key loop enumerates the array's decimal index strings via
`Object.entries` and checks them against `keysToIgnore`: with `['0']`
ignored, the Deleted entry for the sequence element at index 0 disappears
from the changelog, while the run without an ignore list reports it. -/
theorem C7_ignore_counterexample :
    deepCompare (some ["0"]) none (vArr [vNum 1]) (vObj [("a", vNum 2)]) "root"
      = .ok [⟨"root.a", none, some (vNum 2), "Added"⟩]
    ∧ deepCompare none none (vArr [vNum 1]) (vObj [("a", vNum 2)]) "root"
      = .ok [⟨"root.0", some (vNum 1), none, "Deleted"⟩,
             ⟨"root.a", none, some (vNum 2), "Added"⟩] := by
  constructor
  · simp +decide [deepCompare, deepObjectCompare, compareIdxKeysGo, compareValues,
      hashCompare, computeHash, jsonStringify, jsonObjItems, jsonArrItems, jsonQuote,
      escChar, getChangelog, filterObjectKeys, jsEntries, jsHasOwn, objGet,
      indexLookup, ignoresKey]
    rfl
  · simp +decide [deepCompare, deepObjectCompare, compareIdxKeysGo, compareValues,
      hashCompare, computeHash, jsonStringify, jsonObjItems, jsonArrItems, jsonQuote,
      escChar, getChangelog, filterObjectKeys, jsEntries, jsHasOwn, objGet,
      indexLookup, ignoresKey]
    rfl

/-- C7 amended: (a) for every ignored mapping key `k` (plain, non-empty,
with plain-keyed inputs and a root not itself ending in `.k`), the
comparison never produces a non-Added changelog entry whose path ends in
`.k`, at any nesting level — value changes and deletions at `k` are
suppressed; (b) added-key detection ignores the ignore-list: a newly
introduced ignored key is still reported as Added; (c) a both-sequences
comparison checks no index against the ignore-list — its per-element pass
emits the index-0 Updated entry for every ignore configuration `ign`.
(The ignore-list *is* applied to a sequence's index strings when the
sequence is compared against a mapping, which is the counterexample.) -/
theorem C7_ignore_amended :
    (∀ (k : String) (l : List String) (fil : Option (List String))
        (prior latest : JVal) (root : String),
      k ∈ l → plainKey k = true → k ≠ "" →
      plainVal prior = true → plainVal latest = true →
      ¬ endsIn ("." ++ k) root →
      ∀ res, deepCompare (some l) fil prior latest root = .ok res →
        ∀ e ∈ res, e.note ≠ "Added" → ¬ endsIn ("." ++ k) e.path)
    ∧ deepCompare (some ["b"]) none (vObj [("a", vNum 1)])
        (vObj [("a", vNum 1), ("b", vNum 2)]) "root"
        = .ok [⟨"root.b", none, some (vNum 2), "Added"⟩]
    ∧ (∀ (ign : Option (List String)),
        deepArrayCompare ign none (vArr [vNum 1]) (vArr [vNum 2]) "root"
          = .ok [⟨"root[0]", some (vNum 1), some (vNum 2), "Updated"⟩]) := by
  refine ⟨?_, ?_, ?_⟩
  · intro k l fil prior latest root hkl hpk hkz hv hw hroot res hres e he hnote
    rw [deepCompare] at hres
    by_cases ht : (!prior.truthy || !latest.truthy) = true
    · simp only [ht, reduceIte] at hres
      exact Except.noConfusion hres
    · simp only [Bool.not_eq_true] at ht
      simp only [ht, Bool.false_eq_true, reduceIte] at hres
      cases hh : hashCompare prior latest with
      | error err =>
        rw [hh] at hres
        exact Except.noConfusion hres
      | ok b =>
        rw [hh] at hres
        cases b with
        | true =>
          have hres2 : (Except.ok [] : Except CmpError (List Entry)) = .ok res := hres
          obtain rfl := (Except.ok.inj hres2).symm
          exact absurd he (List.not_mem_nil e)
        | false =>
          have hres3 : (if areBothArrays prior latest then
                deepArrayCompare (some l) fil prior latest root
              else if areBothObjects prior latest then
                deepObjectCompare (some l) fil prior latest root
              else (pure [getChangelog prior latest root .Updated fil]
                : Except CmpError (List Entry))) = .ok res := hres
          by_cases ha : areBothArrays prior latest = true
          · simp only [ha, reduceIte] at hres3
            exact deepArrayCompare_ignored k l fil prior latest root
              hkl hpk hkz hv hw res hres3 e he hnote
          · simp only [Bool.not_eq_true] at ha
            simp only [ha, Bool.false_eq_true, reduceIte] at hres3
            by_cases ho : areBothObjects prior latest = true
            · simp only [ho, reduceIte] at hres3
              exact deepObjectCompare_ignored k l fil prior latest root
                hkl hpk hkz hv hw res hres3 e he hnote
            · simp only [Bool.not_eq_true] at ho
              simp only [ho, Bool.false_eq_true, reduceIte] at hres3
              have hres4 : (Except.ok [getChangelog prior latest root .Updated fil]
                  : Except CmpError (List Entry)) = .ok res := hres3
              obtain rfl := (Except.ok.inj hres4).symm
              obtain rfl := List.mem_singleton.mp he
              rw [getChangelog_path]
              exact hroot
  · simp +decide [deepCompare, deepObjectCompare, compareKeysGo, compareValues,
      hashCompare, computeHash, jsonStringify, jsonObjItems, jsonQuote, escChar,
      getChangelog, filterObjectKeys, jsEntries, jsHasOwn, objGet, ignoresKey]
    rfl
  · intro ign
    have hh : hashCompare (vArr [vNum 1]) (vArr [vNum 2]) = .ok false := rfl
    rw [deepArrayCompare_arr_eq ign none [vNum 1] [vNum 2] "root" hh]
    have hcv : compareValues ign none (vNum 1) (jsIndex [vNum 2] 0)
        ("root" ++ "[" ++ toString 0 ++ "]")
        = .ok [⟨"root[0]", some (vNum 1), some (vNum 2), "Updated"⟩] := by
      rw [compareValues]
      rfl
    have hm : (([vNum 1] : List JVal).enumFrom 0).mapM (perElemDiff ign none [vNum 2] "root")
        = .ok [[⟨"root[0]", some (vNum 1), some (vNum 2), "Updated"⟩]] := by
      rw [show ([vNum 1] : List JVal).enumFrom 0 = [(0, vNum 1)] from rfl]
      rw [List.mapM_cons]
      rw [show perElemDiff ign none [vNum 2] "root" (0, vNum 1)
          = compareValues ign none (vNum 1) (jsIndex [vNum 2] 0)
              ("root" ++ "[" ++ toString 0 ++ "]") from rfl]
      rw [hcv]
      rfl
    rw [hm]
    rfl

/-- C7 witness: conjunct (a) of the amended claim applied to the ignored
key `b` of `["b"]` on a concrete object pair whose only surviving entry is
the Updated one at `root.c`; the evaluation shows the changed ignored key
`b` produced no entry at all. -/
theorem C7_ignore_witness :
    ("b" : String) ∈ ["b"]
    ∧ deepCompare (some ["b"]) none (vObj [("b", vNum 1), ("c", vNum 2)])
        (vObj [("b", vNum 9), ("c", vNum 3)]) "root"
        = .ok [⟨"root.c", some (vNum 2), some (vNum 3), "Updated"⟩]
    ∧ (∀ e ∈ [(⟨"root.c", some (vNum 2), some (vNum 3), "Updated"⟩ : Entry)],
        e.note ≠ "Added" → ¬ endsIn ("." ++ "b") e.path) := by
  have heval : deepCompare (some ["b"]) none (vObj [("b", vNum 1), ("c", vNum 2)])
      (vObj [("b", vNum 9), ("c", vNum 3)]) "root"
      = .ok [⟨"root.c", some (vNum 2), some (vNum 3), "Updated"⟩] := by
    simp +decide [deepCompare, deepObjectCompare, compareKeysGo, compareValues,
      hashCompare, computeHash, jsonStringify, jsonObjItems, jsonQuote, escChar,
      getChangelog, filterObjectKeys, jsEntries, jsHasOwn, objGet, ignoresKey]
    rfl
  refine ⟨by decide, heval, ?_⟩
  exact C7_ignore_amended.1 "b" ["b"] none (vObj [("b", vNum 1), ("c", vNum 2)])
    (vObj [("b", vNum 9), ("c", vNum 3)]) "root" (by decide) (by decide)
    (by decide) (by decide) (by decide) (by decide)
    [⟨"root.c", some (vNum 2), some (vNum 3), "Updated"⟩] heval
